import Mathlib

/-!
# Verification of the `arcode` arithmetic coder (`arcode/arcode.py`)

This file is a shallow embedding of the arithmetic-coding engine of
`arcode.py` (class `ArithmeticCode`), together with proofs and refutations of
the specified properties.

Embedding conventions:

* Python 2 integers are arbitrary-precision signed integers; they are embedded
  as `Int`.  Python 2 `/` on integers is floor division; every division site in
  the source has a nonnegative divisor, and for a nonnegative divisor floor
  division coincides with Lean's `Int` division (`Int.ediv`, written `/`).
  (Python raises `ZeroDivisionError` on a zero divisor where Lean returns `0`;
  the relevant divisors are positive on all runs considered here.)
* Python bitwise operators on two's-complement integers are embedded
  arithmetically, which is exact for ALL integers (positive and negative):
  - bit test `(x >> j) & 1` is `pybit x j = (x / 2^j) % 2`;
  - `x & (2^k - 1)` (mask of the low `k` bits) is `x % 2^k`;
  - `x | 2^j` is `x + 2^j * (1 - pybit x j)`;
  - `x ^ 2^j` is `x + 2^j * (1 - 2 * pybit x j)`;
  - `x & ~(2^a | 2^b)` (clearing bits `a` and `b`) is
    `x - 2^a * pybit x a - 2^b * pybit x b`;
  - `x << 1` is `2 * x`;
  - the test `(upper ^ ~lower) & mask_bit(0) != 0` ("the most significant bits
    of `upper` and `lower` agree") is `pybit upper 15 = pybit lower 15`;
  - the test `(~upper & lower) & mask_bit(1) != 0` ("bit 14 of `upper` is
    clear and bit 14 of `lower` is set") is
    `pybit upper 14 = 0 ∧ pybit lower 14 = 1`.
* Python `while` loops are embedded as fuel-indexed recursions; fuel
  exhaustion is either an `Option.none` / `CodeError.fuelOut` result or (for
  the two renormalization wrappers) returns the state unchanged.  The proofs
  show the fuel bounds are sufficient where the claims need it.
* The byte-stream / bit-stream files are external collaborators
  (`bitfile`, spec section 6); an input byte file is a `List Nat` (byte
  values), a bit file is a `List Bool` with the first list entry being the
  first bit on the wire, and multi-bit integers written most significant bit
  first, as the spec's bit-stream contract states.  `get_bit` past end of file
  is `none` (the `EOFError` the source catches and treats as an implicit zero
  bit).
* The `_infile` / `_outfile` stream members matter to the engine only through
  being bound or not (`is not None`); they are embedded as the flags
  `infile_open` / `outfile_open`, while the streams' contents are passed to
  and returned from the drivers explicitly.  Note that the source never
  resets these members to `None`, so they stay bound after a pass completes.
-/

namespace Arcode

/-- `EOF_CHAR = 256`, the EOF sentinel symbol (arcode.py line 39). -/
def EOF_CHAR : Nat := 256

/-- `PRECISION = 16`, number of bits for running code values (line 42). -/
def PRECISION : Nat := 16

/-- `MSB_MASK = (1 << (PRECISION - 1)) - 1 = 0x7FFF` (line 45). -/
def MSB_MASK : Int := 2 ^ (PRECISION - 1) - 1

/-- `MAX_PROBABILITY = 1 << (PRECISION - 2) = 0x4000` (line 48). -/
def MAX_PROBABILITY : Int := 2 ^ (PRECISION - 2)

/-- `mask_bit(x) = 1 << (PRECISION - (1 + x))`: bit `x` counted from the MSB
(line 181).  `mask_bit 0 = 2^15`, `mask_bit 1 = 2^14`. -/
def mask_bit (x : Nat) : Int := 2 ^ (PRECISION - (1 + x))

/-- Bit `j` (counted from the least significant end) of the two's-complement
integer `x`, as an integer `0` or `1`: Python's `(x >> j) & 1`. -/
def pybit (x : Int) (j : Nat) : Int := (x / 2 ^ j) % 2

/-- The error conditions of the source, tagged.  `alreadyOpen` is the
`ValueError` raised by `encode_file` / `decode_file` on bound streams;
`noInput` / `noOutput` are the defensive `ArithmeticCodeError`s;
`malformedHeader` is the duplicate-entry `ArithmeticCodeError` of
`read_header`; `rangeLookup` is the `ValueError` of
`get_symbol_from_probability`; `ioError` is an uncaught `EOFError` from the
bit stream; `fuelOut` is a modelling artifact marking exhaustion of a loop's
fuel (no Python counterpart; shown unreachable where claims need it). -/
inductive CodeError where
  | alreadyOpen
  | noInput
  | noOutput
  | malformedHeader
  | rangeLookup
  | ioError
  | fuelOut
deriving DecidableEq, Repr

/-- The instance state of class `ArithmeticCode` (lines 141-156).  `_ranges`
is a list of 258 cumulative bounds, `_lower`/`_upper`/`_code` the 16-bit
interval state, `_underflow_bits` the pending underflow count.  The
constructor defaults are the `__init__` values. -/
@[ext]
structure ArithmeticCode where
  lower : Int := 0
  upper : Int := 0xFFFF
  code : Int := 0
  underflow_bits : Nat := 0
  ranges : List Int := List.replicate 258 0
  cumulative_prob : Int := 0
  infile_open : Bool := false
  outfile_open : Bool := false
  static_model : Bool := true
deriving DecidableEq, Repr

/-- `ArithmeticCode(static)` constructor (lines 111-156). -/
def ArithmeticCode.mk_init (static : Bool) : ArithmeticCode :=
  { static_model := static }

/-- The in-place halving walk of the adaptive rescale (lines 500-510):
`original` tracks the pre-rescale value of the previous slot, the new value
of slot `i` is the new value of slot `i - 1` plus `1` if `delta <= 2` else
`delta / 2`, where `delta` is the pre-rescale difference. -/
def rescale_walk (original prevNew : Int) : List Int → List Int
  | [] => []
  | x :: xs =>
    let delta := x - original
    let nx := prevNew + (if delta ≤ 2 then (1 : Int) else delta / 2)
    nx :: rescale_walk x nx xs

/-- `apply_symbol_range(symbol)` (lines 450-512): narrow `[lower, upper]` to
the symbol's probability range; in adaptive mode also bump the cumulative
bounds above `symbol`, and halve the model when `_cumulative_prob` reaches
`MAX_PROBABILITY`.  List reads are `getD _ 0` (all indices used are in
bounds on the runs considered). -/
def apply_symbol_range (st : ArithmeticCode) (symbol : Nat) : ArithmeticCode :=
  let range : Int := st.upper - st.lower + 1
  let rescaled_hi : Int := st.ranges.getD (symbol + 1) 0 * range / st.cumulative_prob
  let upper1 : Int := st.lower + rescaled_hi - 1
  let rescaled_lo : Int := st.ranges.getD symbol 0 * range / st.cumulative_prob
  let lower1 : Int := st.lower + rescaled_lo
  if st.static_model then
    { st with lower := lower1, upper := upper1 }
  else
    -- add new symbol to model (lines 494-496)
    let cum1 : Int := st.cumulative_prob + 1
    let ranges1 : List Int :=
      st.ranges.mapIdx (fun i v => if symbol + 1 ≤ i then v + 1 else v)
    if MAX_PROBABILITY ≤ cum1 then
      -- halve current values (lines 499-512); `original` starts at 0
      let ranges2 : List Int :=
        match ranges1 with
        | [] => []
        | r0 :: rest => r0 :: rescale_walk 0 r0 rest
      { st with lower := lower1, upper := upper1,
                ranges := ranges2,
                cumulative_prob := ranges2.getD (EOF_CHAR + 1) 0 }
    else
      { st with lower := lower1, upper := upper1,
                ranges := ranges1, cumulative_prob := cum1 }

/-- The renormalization loop of `write_encoded_bits` (lines 553-590), one
fuel unit per iteration that shifts.  Returns the new
`(lower, upper, underflow_bits)` and the list of bits written, or `none` if
the fuel ran out with the loop still shifting. -/
def write_encoded_bits_loop :
    Nat → Int → Int → Nat → Option (Int × Int × Nat × List Bool)
  | fuel, lower, upper, underflow =>
    if pybit upper 15 = pybit lower 15 then
      -- MSBs match: write the shared MSB, then the pending underflow bits
      match fuel with
      | 0 => none
      | fuel + 1 =>
        let b : Bool := pybit upper 15 == 1
        let emitted : List Bool := b :: List.replicate underflow (!b)
        match write_encoded_bits_loop fuel
            (2 * (lower % 2 ^ 15)) (2 * (upper % 2 ^ 15) + 1) 0 with
        | none => none
        | some (l, u, uf, bits) => some (l, u, uf, emitted ++ bits)
    else if pybit upper 14 = 0 ∧ pybit lower 14 = 1 then
      -- underflow: clear bits 15,14 of lower, set bit 14 of upper
      match fuel with
      | 0 => none
      | fuel + 1 =>
        let lower1 := lower - 2 ^ 15 * pybit lower 15 - 2 ^ 14 * pybit lower 14
        let upper1 := upper + 2 ^ 14 * (1 - pybit upper 14)
        write_encoded_bits_loop fuel
          (2 * (lower1 % 2 ^ 15)) (2 * (upper1 % 2 ^ 15) + 1) (underflow + 1)
    else
      some (lower, upper, underflow, [])

/-- `write_encoded_bits()` wrapper: run the loop (fuel 16 always suffices for
16-bit states, see `write_encoded_bits_loop_total`-style results below);
returns the updated coder and the bits written. -/
def write_encoded_bits (st : ArithmeticCode) : ArithmeticCode × List Bool :=
  match write_encoded_bits_loop 16 st.lower st.upper st.underflow_bits with
  | some (l, u, uf, bits) =>
    ({ st with lower := l, upper := u, underflow_bits := uf }, bits)
  | none => (st, [])

/-- `write_remaining()` (lines 592-624): write bit 14 of `lower`, then
`underflow_bits + 1` copies of its complement. -/
def write_remaining (lower : Int) (underflow : Nat) : List Bool :=
  let b : Bool := pybit lower 14 == 1
  b :: List.replicate (underflow + 1) (!b)

/-- `BitFile.get_bit`: next bit of the stream, or `none` at end of file
(where the real stream raises `EOFError`). -/
def get_bit : List Bool → Option (Bool × List Bool)
  | [] => none
  | b :: rest => some (b, rest)

/-- The value of a bit list read as an unsigned integer, most significant
bit first (the bit-stream contract of spec section 6). -/
def bits_to_nat (l : List Bool) : Nat :=
  l.foldl (fun a b => 2 * a + (if b then 1 else 0)) 0

/-- `BitFile.get_bits_ltom(n)` and `get_char` (for `n = 8`): read an `n`-bit
unsigned integer, most significant bit first; `none` (`EOFError`) if the
stream has fewer than `n` bits. -/
def get_bits_msb (n : Nat) (s : List Bool) : Option (Nat × List Bool) :=
  if n ≤ s.length then some (bits_to_nat (s.take n), s.drop n) else none

/-- `BitFile.put_bits_ltom(v, n)` and `put_char`: the `n` bits of `v`, most
significant first. -/
def put_bits_msb (n : Nat) (v : Nat) : List Bool :=
  (List.range n).map (fun i => v.testBit (n - 1 - i))

/-- The in-place prefix-sum loop of `symbol_count_to_probability_ranges`
(lines 374-375): `for c in xrange(EOF_CHAR + 1): ranges[c + 1] += ranges[c]`. -/
def accumulate_ranges (l : List Int) : List Int :=
  (List.range (EOF_CHAR + 1)).foldl
    (fun acc c => acc.set (c + 1) (acc.getD (c + 1) 0 + acc.getD c 0)) l

/-- `symbol_count_to_probability_ranges()` (lines 347-375): set
`ranges[0] = 0` and `ranges[257] = 1` (the EOF slot), bump
`_cumulative_prob`, and prefix-sum the counts into cumulative bounds. -/
def symbol_count_to_probability_ranges (ranges : List Int) (cum : Int) :
    List Int × Int :=
  let r1 := (ranges.set 0 0).set (EOF_CHAR + 1) 1
  (accumulate_ranges r1, cum + 1)

/-- One iteration of the byte-frequency tally loop of
`build_probability_range_list` (line 325): `count_array[ord(c)] += 1`. -/
def tally_step (a : List Int) (c : Nat) : List Int :=
  a.set c (a.getD c 0 + 1)

/-- The byte-frequency tally loop of `build_probability_range_list`
(lines 321-326) over the input bytes, starting from 256 zero counts. -/
def tally (input : List Nat) : List Int :=
  List.foldl tally_step (List.replicate EOF_CHAR 0) input

/-- The rescale of the static model build (lines 331-338): when the tallied
`total_count` reaches `MAX_PROBABILITY`, divide each count by
`rescale_value = total_count / MAX_PROBABILITY + 1`, keeping each nonzero
count at least 1. -/
def rescale_count_array (count_array : List Int) : List Int :=
  let total_count : Int := count_array.sum
  if MAX_PROBABILITY ≤ total_count then
    let rescale_value : Int := total_count / MAX_PROBABILITY + 1
    count_array.map (fun v =>
      if rescale_value < v then v / rescale_value
      else if v ≠ 0 then 1 else v)
  else count_array

/-- `build_probability_range_list()` (lines 295-345): tally the input bytes,
rescale if needed, install `[0] + count_array + [1]` and convert the counts
to cumulative probability bounds. -/
def build_probability_range_list (st : ArithmeticCode) (input : List Nat) :
    ArithmeticCode :=
  let count_array := rescale_count_array (tally input)
  let ranges0 : List Int := 0 :: count_array ++ [1]
  let cum0 : Int := count_array.sum
  let rc := symbol_count_to_probability_ranges ranges0 cum0
  { st with ranges := rc.1, cumulative_prob := rc.2 }

/-- `initialize_adaptive_probability_range_list()` (lines 424-448): the
uniform distribution `ranges[i] = i`, `cumulative_prob = 257`. -/
def initialize_adaptive_probability_range_list (st : ArithmeticCode) :
    ArithmeticCode :=
  { st with ranges := (List.range (EOF_CHAR + 2)).map Int.ofNat,
            cumulative_prob := (EOF_CHAR : Int) + 1 }

/-- The per-symbol record loop of `write_header` (lines 404-422): for each
byte value with a nonzero scaled count, write the byte then its count in
`PRECISION - 2` bits; terminate with a zero count record. -/
def write_header_aux (ranges : List Int) : List Nat → Int → List Bool
  | [], _ => put_bits_msb 8 0 ++ put_bits_msb (PRECISION - 2) 0
  | c :: cs, previous =>
    if previous < ranges.getD (c + 1) 0 then
      put_bits_msb 8 c ++
        put_bits_msb (PRECISION - 2) (ranges.getD (c + 1) 0 - previous).toNat ++
        write_header_aux ranges cs (ranges.getD (c + 1) 0)
    else
      write_header_aux ranges cs previous

/-- `write_header()` (lines 377-422). -/
def write_header (ranges : List Int) : List Bool :=
  write_header_aux ranges (List.range EOF_CHAR) 0

/-- The record-reading loop of `read_header` (lines 719-733): read
`(symbol byte, 14-bit count)` records until a zero count; a record for a
symbol whose slot is already nonzero raises the duplicate-entry error. -/
def read_header_loop :
    Nat → List Int → Int → List Bool →
    Except CodeError (List Int × Int × List Bool)
  | 0, _, _, _ => .error .fuelOut
  | fuel + 1, ranges, cum, s =>
    match get_bits_msb 8 s with
    | none => .error .ioError
    | some (c, s1) =>
      match get_bits_msb (PRECISION - 2) s1 with
      | none => .error .ioError
      | some (count, s2) =>
        if count = 0 then .ok (ranges, cum, s2)
        else if ranges.getD (c + 1) 0 ≠ 0 then .error .malformedHeader
        else read_header_loop fuel
          (ranges.set (c + 1) (count : Int)) (cum + (count : Int)) s2

/-- `read_header()` (lines 689-736): zero the table, read the records, then
convert counts to cumulative bounds.  Each loop iteration consumes 22 bits,
so fuel `s.length + 1` never runs out. -/
def read_header (s : List Bool) : Except CodeError (List Int × Int × List Bool) :=
  match read_header_loop (s.length + 1) (List.replicate (EOF_CHAR + 2) 0) 0 s with
  | .error e => .error e
  | .ok (ranges, cum, s1) =>
    let rc := symbol_count_to_probability_ranges ranges cum
    .ok (rc.1, rc.2, s1)

/-- `initialize_decoder()` (lines 738-777): shift the first `PRECISION` bits
of the stream into `code` (end of file shifts in nothing, leaving zeros). -/
def initialize_decoder_code (s : List Bool) : Int × List Bool :=
  (List.range PRECISION).foldl
    (fun (acc : Int × List Bool) _ =>
      match get_bit acc.2 with
      | none => (2 * acc.1, acc.2)
      | some (b, rest) => (2 * acc.1 + (if b then 1 else 0), rest))
    (0, s)

/-- `get_unscaled_code()` (lines 779-806): undo the scaling of
`apply_symbol_range`; the `- 1` is applied to the numerator before the floor
division by `range`. -/
def get_unscaled_code (st : ArithmeticCode) : Int :=
  let range : Int := st.upper - st.lower + 1
  ((st.code - st.lower + 1) * st.cumulative_prob - 1) / range

/-- The binary-search loop of `get_symbol_from_probability` (lines 830-850).
`first`, `last`, `middle` are Python ints (`last` may go to `-1`); list reads
index with `Int.toNat` (nonnegative whenever the loop body runs).  Loop exit
without a hit raises the `rangeLookup` error.  Each iteration shrinks
`last - first`, so fuel 300 never runs out from the initial bounds. -/
def get_symbol_from_probability_loop (ranges : List Int) (probability : Int) :
    Nat → Int → Int → Int → Except CodeError Nat
  | 0, _, _, _ => .error .fuelOut
  | fuel + 1, first, last, middle =>
    if first ≤ last then
      if probability < ranges.getD middle.toNat 0 then
        let last1 := middle - 1
        get_symbol_from_probability_loop ranges probability fuel
          first last1 (first + (last1 - first) / 2)
      else if ranges.getD (middle.toNat + 1) 0 ≤ probability then
        let first1 := middle + 1
        get_symbol_from_probability_loop ranges probability fuel
          first1 last (first1 + (last - first1) / 2)
      else .ok middle.toNat
    else .error .rangeLookup

/-- `get_symbol_from_probability(probability)` (lines 808-850): binary search
for the symbol whose cumulative range contains `probability`. -/
def get_symbol_from_probability (st : ArithmeticCode) (probability : Int) :
    Except CodeError Nat :=
  get_symbol_from_probability_loop st.ranges probability 300
    0 ((EOF_CHAR : Int) + 1) (((EOF_CHAR : Int) + 1) / 2)

/-- The renormalization loop of `read_encoded_bits` (lines 878-918): the
mirror of `write_encoded_bits_loop`, shifting `code` alongside and pulling
the next stream bit into its low end (end of file shifts in zero). -/
def read_encoded_bits_loop :
    Nat → Int → Int → Int → List Bool → Option (Int × Int × Int × List Bool)
  | fuel, lower, upper, code, s =>
    if pybit upper 15 = pybit lower 15 then
      match fuel with
      | 0 => none
      | fuel + 1 =>
        let code1 := 2 * (code % 2 ^ 15)
        match get_bit s with
        | none =>
          read_encoded_bits_loop fuel
            (2 * (lower % 2 ^ 15)) (2 * (upper % 2 ^ 15) + 1) code1 []
        | some (b, rest) =>
          read_encoded_bits_loop fuel
            (2 * (lower % 2 ^ 15)) (2 * (upper % 2 ^ 15) + 1)
            (code1 + (if b then 1 else 0)) rest
    else if pybit upper 14 = 0 ∧ pybit lower 14 = 1 then
      match fuel with
      | 0 => none
      | fuel + 1 =>
        let lower1 := lower - 2 ^ 15 * pybit lower 15 - 2 ^ 14 * pybit lower 14
        let upper1 := upper + 2 ^ 14 * (1 - pybit upper 14)
        let code2 := code + 2 ^ 14 * (1 - 2 * pybit code 14)
        let code1 := 2 * (code2 % 2 ^ 15)
        match get_bit s with
        | none =>
          read_encoded_bits_loop fuel
            (2 * (lower1 % 2 ^ 15)) (2 * (upper1 % 2 ^ 15) + 1) code1 []
        | some (b, rest) =>
          read_encoded_bits_loop fuel
            (2 * (lower1 % 2 ^ 15)) (2 * (upper1 % 2 ^ 15) + 1)
            (code1 + (if b then 1 else 0)) rest
    else
      some (lower, upper, code, s)

/-- `read_encoded_bits()` wrapper: run the loop with fuel 16 (always enough
for 16-bit states); returns the updated coder and the remaining stream. -/
def read_encoded_bits (st : ArithmeticCode) (s : List Bool) :
    ArithmeticCode × List Bool :=
  match read_encoded_bits_loop 16 st.lower st.upper st.code s with
  | some (l, u, c, s1) => ({ st with lower := l, upper := u, code := c }, s1)
  | none => (st, s)

/-- One iteration of the encode loop of `encode_file` (lines 282-286):
`apply_symbol_range(c); write_encoded_bits()`, accumulating output bits. -/
def encode_step (acc : ArithmeticCode × List Bool) (c : Nat) :
    ArithmeticCode × List Bool :=
  let wb := write_encoded_bits (apply_symbol_range acc.1 c)
  (wb.1, acc.2 ++ wb.2)

/-- `encode_file(input, output)` (lines 235-293): fail with the
`alreadyOpen` `ValueError` if a stream is bound; otherwise build the static
model and write its header (or initialize the adaptive model), encode the
input bytes one at a time, encode the EOF sentinel, and flush.  Returns the
output bit stream and the final coder state. -/
def encode_file (st : ArithmeticCode) (input : List Nat) :
    Except CodeError (List Bool × ArithmeticCode) :=
  if st.infile_open || st.outfile_open then .error .alreadyOpen
  else
    let stO := { st with infile_open := true, outfile_open := true }
    let st0 := if st.static_model
      then build_probability_range_list stO input
      else initialize_adaptive_probability_range_list stO
    let header := if st.static_model then write_header st0.ranges else []
    let body := input.foldl encode_step (st0, [])
    let eofStep := write_encoded_bits (apply_symbol_range body.1 EOF_CHAR)
    let tail := write_remaining eofStep.1.lower eofStep.1.underflow_bits
    .ok (header ++ body.2 ++ eofStep.2 ++ tail, eofStep.1)

/-- One iteration of the symbol-decoding part of the decode loop of
`decode_file` (lines 682-684), once the symbol `c` has been identified:
`apply_symbol_range(c); read_encoded_bits()`. -/
def decode_apply_step (acc : ArithmeticCode × List Bool) (c : Nat) :
    ArithmeticCode × List Bool :=
  read_encoded_bits (apply_symbol_range acc.1 c) acc.2

/-- The symbol loop of `decode_file` (lines 670-684): unscale the code,
look up the symbol, stop at the EOF sentinel, otherwise write the byte and
factor the symbol out.  One fuel unit per decoded symbol (the Python loop
can run once per output byte without bound). -/
def decode_loop :
    Nat → ArithmeticCode → List Bool → List Nat → Except CodeError (List Nat)
  | 0, _, _, _ => .error .fuelOut
  | fuel + 1, st, s, out =>
    match get_symbol_from_probability st (get_unscaled_code st) with
    | .error e => .error e
    | .ok c =>
      if c = EOF_CHAR then .ok out
      else
        let next := decode_apply_step (st, s) c
        decode_loop fuel next.1 next.2 (out ++ [c])

/-- `decode_file(input, output)` (lines 626-687): fail with the
`alreadyOpen` `ValueError` if a stream is bound; otherwise read the header
(static) or initialize the adaptive model, prime `code` with the first 16
bits, and decode symbols until the EOF sentinel.  `fuel` bounds the number
of decoded symbols (a modelling artifact; the Python loop has no bound). -/
def decode_file (st : ArithmeticCode) (input : List Bool) (fuel : Nat) :
    Except CodeError (List Nat) :=
  if st.infile_open || st.outfile_open then .error .alreadyOpen
  else
    let stO := { st with infile_open := true, outfile_open := true }
    let hdr : Except CodeError (List Int × Int × List Bool) :=
      if st.static_model then read_header input
      else
        let stA := initialize_adaptive_probability_range_list stO
        .ok (stA.ranges, stA.cumulative_prob, input)
    match hdr with
    | .error e => .error e
    | .ok (ranges, cum, s0) =>
      let cs := initialize_decoder_code s0
      decode_loop fuel
        { stO with ranges := ranges, cumulative_prob := cum,
                   code := cs.1, lower := 0, upper := 0xFFFF } cs.2 []


/-- A small concrete coder state used to instantiate theorems with
hypotheses: the adaptive-style uniform table on a fresh 16-bit interval. -/
def demo_state : ArithmeticCode :=
  { lower := 0, upper := 0xFFFF, code := 0, underflow_bits := 0,
    ranges := (List.range (EOF_CHAR + 2)).map Int.ofNat,
    cumulative_prob := (EOF_CHAR : Int) + 1,
    infile_open := true, outfile_open := true, static_model := true }

/-- A tiny coder state (`width 2`, `cum_total 3`) on which the two readings
of the unscale formula disagree: `(0 - 0 + 1) * 3 - 1) / 2 = 1` but
`((0 - 0 + 1) * 3) / 2 - 1 = 0`. -/
def paren_demo_state : ArithmeticCode :=
  { lower := 0, upper := 1, code := 0, underflow_bits := 0, ranges := [],
    cumulative_prob := 3, infile_open := false, outfile_open := false,
    static_model := true }

/-! ### A concrete input on which the static model build overflows

`X1` is a 32767-byte input file: byte `0` appears once (at position 1286),
each of the bytes `1 .. 254` appears once (at the end), and byte `255` fills
the remaining 32512 positions.  Its tallied total is `32767 >=
MAX_PROBABILITY`, so the static build rescales with `rescale_value =
32767 / 16384 + 1 = 2`: the count 32512 halves to 16256, but all 255
singleton counts are clamped up to 1, so the rescaled total is
`255 + 16256 = 16511` and `_cumulative_prob = 16512 > MAX_PROBABILITY`.
With the cumulative total above `MAX_PROBABILITY`, a renormalized interval
(whose width can be as small as `0x4001 = 16385`) can no longer represent
every symbol: encoding `X1`, the interval width right before position 1286
is 16500, and the width-1 symbol `0` scales to an empty interval there
(`upper = lower - 1`), after which the encoder is stuck and the input after
that position no longer influences the output.  (Decoding the encoded file
back indeed yields a byte stream that differs from `X1` at position 1285
and never reaches the EOF sentinel.) -/

/-- The failing 32767-byte input described above. -/
def X1 : List Nat :=
  List.replicate 1286 255 ++ [0] ++ List.replicate 31226 255 ++ List.range' 1 254

/-- The cumulative table the static model build produces on `X1`:
`R[i] = i` for `i <= 255`, `R[256] = 16511`, `R[257] = 16512`. -/
def rangesX1 : List Int := (List.range 256).map Int.ofNat ++ [16511, 16512]

/-- The coder state right after `encode_file` on `X1` has built the static
model (the value of its header/model phase, proved in `build_X1` below). -/
def stX1 : ArithmeticCode :=
  { lower := 0, upper := 0xFFFF, code := 0, underflow_bits := 0,
    ranges := rangesX1, cumulative_prob := 16512,
    infile_open := true, outfile_open := true, static_model := true }

/-- Encoder snapshot while encoding `X1` (verified by the chunk lemmas below). -/
def encX1snap80 : ArithmeticCode × List Bool :=
  ({ stX1 with lower := 27558, upper := 65108, underflow_bits := 0 }, [true])

/-- Encoder snapshot while encoding `X1` (verified by the chunk lemmas below). -/
def encX1snap160 : ArithmeticCode × List Bool :=
  ({ stX1 with lower := 20288, upper := 63320, underflow_bits := 0 }, [true, true, true])

/-- Encoder snapshot while encoding `X1` (verified by the chunk lemmas below). -/
def encX1snap240 : ArithmeticCode × List Bool :=
  ({ stX1 with lower := 6777, upper := 56091, underflow_bits := 0 }, [true, true, true, true, true])

/-- Encoder snapshot while encoding `X1` (verified by the chunk lemmas below). -/
def encX1snap320 : ArithmeticCode × List Bool :=
  ({ stX1 with lower := 3346, upper := 59863, underflow_bits := 1 }, [true, true, true, true, true, true])

/-- Encoder snapshot while encoding `X1` (verified by the chunk lemmas below). -/
def encX1snap400 : ArithmeticCode × List Bool :=
  ({ stX1 with lower := 21426, upper := 53811, underflow_bits := 0 }, [true, true, true, true, true, true, true, false])

/-- Encoder snapshot while encoding `X1` (verified by the chunk lemmas below). -/
def encX1snap480 : ArithmeticCode × List Bool :=
  ({ stX1 with lower := 13840, upper := 50961, underflow_bits := 1 }, [true, true, true, true, true, true, true, false, true])

/-- Encoder snapshot while encoding `X1` (verified by the chunk lemmas below). -/
def encX1snap560 : ArithmeticCode × List Bool :=
  ({ stX1 with lower := 14846, upper := 36113, underflow_bits := 0 }, [true, true, true, true, true, true, true, false, true, true, false])

/-- Encoder snapshot while encoding `X1` (verified by the chunk lemmas below). -/
def encX1snap640 : ArithmeticCode × List Bool :=
  ({ stX1 with lower := 10190, upper := 58926, underflow_bits := 3 }, [true, true, true, true, true, true, true, false, true, true, false])

/-- Encoder snapshot while encoding `X1` (verified by the chunk lemmas below). -/
def encX1snap720 : ArithmeticCode × List Bool :=
  ({ stX1 with lower := 24066, upper := 51993, underflow_bits := 0 }, [true, true, true, true, true, true, true, false, true, true, false, true, false, false, false])

/-- Encoder snapshot while encoding `X1` (verified by the chunk lemmas below). -/
def encX1snap800 : ArithmeticCode × List Bool :=
  ({ stX1 with lower := 11718, upper := 43719, underflow_bits := 1 }, [true, true, true, true, true, true, true, false, true, true, false, true, false, false, false, true])

/-- Encoder snapshot while encoding `X1` (verified by the chunk lemmas below). -/
def encX1snap880 : ArithmeticCode × List Bool :=
  ({ stX1 with lower := 6703, upper := 43377, underflow_bits := 0 }, [true, true, true, true, true, true, true, false, true, true, false, true, false, false, false, true, true, false, false])

/-- Encoder snapshot while encoding `X1` (verified by the chunk lemmas below). -/
def encX1snap960 : ArithmeticCode × List Bool :=
  ({ stX1 with lower := 32717, upper := 53735, underflow_bits := 1 }, [true, true, true, true, true, true, true, false, true, true, false, true, false, false, false, true, true, false, false])

/-- Encoder snapshot while encoding `X1` (verified by the chunk lemmas below). -/
def encX1snap1040 : ArithmeticCode × List Bool :=
  ({ stX1 with lower := 26725, upper := 50815, underflow_bits := 1 }, [true, true, true, true, true, true, true, false, true, true, false, true, false, false, false, true, true, false, false, true, false])

/-- Encoder snapshot while encoding `X1` (verified by the chunk lemmas below). -/
def encX1snap1120 : ArithmeticCode × List Bool :=
  ({ stX1 with lower := 11448, upper := 39048, underflow_bits := 1 }, [true, true, true, true, true, true, true, false, true, true, false, true, false, false, false, true, true, false, false, true, false, true, false])

/-- Encoder snapshot while encoding `X1` (verified by the chunk lemmas below). -/
def encX1snap1200 : ArithmeticCode × List Bool :=
  ({ stX1 with lower := 25883, upper := 57509, underflow_bits := 3 }, [true, true, true, true, true, true, true, false, true, true, false, true, false, false, false, true, true, false, false, true, false, true, false])

/-- Encoder snapshot while encoding `X1` (verified by the chunk lemmas below). -/
def encX1snap1280 : ArithmeticCode × List Bool :=
  ({ stX1 with lower := 31142, upper := 49265, underflow_bits := 0 }, [true, true, true, true, true, true, true, false, true, true, false, true, false, false, false, true, true, false, false, true, false, true, false, true, false, false, false])

/-- Encoder snapshot while encoding `X1` (verified by the chunk lemmas below). -/
def encX1snap1286 : ArithmeticCode × List Bool :=
  ({ stX1 with lower := 32754, upper := 49253, underflow_bits := 0 }, [true, true, true, true, true, true, true, false, true, true, false, true, false, false, false, true, true, false, false, true, false, true, false, true, false, false, false])

/-- Encoder snapshot while encoding `X1` (verified by the chunk lemmas below). -/
def encX1snap1287 : ArithmeticCode × List Bool :=
  ({ stX1 with lower := 32768, upper := 32767, underflow_bits := 0 }, [true, true, true, true, true, true, true, false, true, true, false, true, false, false, false, true, true, false, false, true, false, true, false, true, false, false, false, false, true, true, true, true, true, true, true, true, true, true, true, false, false])


/-! ### Proofs -/

set_option maxRecDepth 100000

/-- `write_encoded_bits` changes only `lower`, `upper`, `underflow_bits`. -/
lemma write_encoded_bits_fields (st : ArithmeticCode) :
    (write_encoded_bits st).1.ranges = st.ranges ∧
    (write_encoded_bits st).1.cumulative_prob = st.cumulative_prob ∧
    (write_encoded_bits st).1.code = st.code ∧
    (write_encoded_bits st).1.infile_open = st.infile_open ∧
    (write_encoded_bits st).1.outfile_open = st.outfile_open ∧
    (write_encoded_bits st).1.static_model = st.static_model := by
  unfold write_encoded_bits
  cases hw : write_encoded_bits_loop 16 st.lower st.upper st.underflow_bits with
  | none => simp
  | some r => obtain ⟨l, u, uf, bits⟩ := r; simp

/-- In static mode, `apply_symbol_range` changes only `lower` and `upper`. -/
lemma apply_symbol_range_static_fields (st : ArithmeticCode) (c : Nat)
    (h : st.static_model = true) :
    (apply_symbol_range st c).ranges = st.ranges ∧
    (apply_symbol_range st c).cumulative_prob = st.cumulative_prob ∧
    (apply_symbol_range st c).code = st.code ∧
    (apply_symbol_range st c).underflow_bits = st.underflow_bits ∧
    (apply_symbol_range st c).infile_open = st.infile_open ∧
    (apply_symbol_range st c).outfile_open = st.outfile_open ∧
    (apply_symbol_range st c).static_model = st.static_model := by
  simp [apply_symbol_range, h]

/-- In static mode, the encode loop changes only `lower`, `upper`,
`underflow_bits` of the coder state. -/
lemma foldl_encode_step_static (l : List Nat) (st : ArithmeticCode) (bits : List Bool)
    (h : st.static_model = true) :
    (List.foldl encode_step (st, bits) l).1.ranges = st.ranges ∧
    (List.foldl encode_step (st, bits) l).1.cumulative_prob = st.cumulative_prob ∧
    (List.foldl encode_step (st, bits) l).1.code = st.code ∧
    (List.foldl encode_step (st, bits) l).1.infile_open = st.infile_open ∧
    (List.foldl encode_step (st, bits) l).1.outfile_open = st.outfile_open ∧
    (List.foldl encode_step (st, bits) l).1.static_model = true := by
  induction l generalizing st bits with
  | nil => simp_all
  | cons c cs ih =>
    rw [List.foldl_cons]
    have h1 : encode_step (st, bits) c =
        ((encode_step (st, bits) c).1, (encode_step (st, bits) c).2) := rfl
    have ha := apply_symbol_range_static_fields st c h
    have hw := write_encoded_bits_fields (apply_symbol_range st c)
    have hstep : (encode_step (st, bits) c).1.ranges = st.ranges ∧
        (encode_step (st, bits) c).1.cumulative_prob = st.cumulative_prob ∧
        (encode_step (st, bits) c).1.code = st.code ∧
        (encode_step (st, bits) c).1.infile_open = st.infile_open ∧
        (encode_step (st, bits) c).1.outfile_open = st.outfile_open ∧
        (encode_step (st, bits) c).1.static_model = true := by
      simp only [encode_step]
      refine ⟨?_, ?_, ?_, ?_, ?_, ?_⟩ <;> simp [hw.1, hw.2.1, hw.2.2.1, hw.2.2.2.1,
        hw.2.2.2.2.1, hw.2.2.2.2.2, ha.1, ha.2.1, ha.2.2.1, ha.2.2.2.2.1, ha.2.2.2.2.2.1,
        ha.2.2.2.2.2.2, h]
    rw [h1]
    have := ih (encode_step (st, bits) c).1 (encode_step (st, bits) c).2 hstep.2.2.2.2.2
    rw [this.1, this.2.1, this.2.2.1, this.2.2.2.1, this.2.2.2.2.1]
    exact ⟨hstep.1, hstep.2.1, hstep.2.2.1, hstep.2.2.2.1, hstep.2.2.2.2.1, this.2.2.2.2.2⟩


/-- Reconstruct the full coder state after a static encode run from the
computed `lower`, `upper`, `underflow_bits` and output bits. -/
lemma encode_chunk_state (st : ArithmeticCode) (bits : List Bool) (l : List Nat)
    (L U : Int) (UF : Nat) (B : List Bool) (h : st.static_model = true)
    (ht : (fun (p : ArithmeticCode × List Bool) =>
        (p.1.lower, p.1.upper, p.1.underflow_bits, p.2))
        (List.foldl encode_step (st, bits) l) = (L, U, UF, B)) :
    List.foldl encode_step (st, bits) l =
      ({ st with lower := L, upper := U, underflow_bits := UF }, B) := by
  obtain ⟨h1, h2, h3, h4, h5, h6⟩ := foldl_encode_step_static l st bits h
  simp only [Prod.mk.injEq] at ht
  obtain ⟨hL, hU, hUF, hB⟩ := ht
  refine Prod.ext_iff.mpr ⟨?_, hB⟩
  apply ArithmeticCode.ext <;> simp [hL, hU, hUF, h1, h2, h3, h4, h5, h6, h]

/-- Setting a list entry to its current value is the identity. -/
lemma list_set_getD_self (l : List Int) (c : Nat) : l.set c (l.getD c 0) = l := by
  induction l generalizing c with
  | nil => simp
  | cons x xs ih =>
    cases c with
    | zero => simp [List.getD]
    | succ n => simp only [List.getD_cons_succ, List.set_cons_succ, List.cons.injEq,
        true_and]; exact ih n

/-- Tallying `n` copies of the byte `c` adds `n` to count slot `c`. -/
lemma tally_step_replicate (n c : Nat) (a : List Int) :
    List.foldl tally_step a (List.replicate n c) = a.set c (a.getD c 0 + (n : Int)) := by
  induction n generalizing a with
  | zero => simpa using (list_set_getD_self a c).symm
  | succ m ih =>
    rw [List.replicate_succ, List.foldl_cons, ih]
    by_cases hc : c < a.length
    · have h1 : (tally_step a c).getD c 0 = a.getD c 0 + 1 := by
        simp [tally_step, List.getD_eq_getElem?_getD, List.getElem?_set_self hc]
      rw [h1, tally_step, List.set_set]
      congr 1
      push_cast
      ring
    · have hl : a.length ≤ c := Nat.le_of_not_lt hc
      simp [tally_step, List.set_eq_of_length_le hl]

/-- The byte frequencies of `X1`: one each of bytes `0 .. 254`, 32512 copies
of byte `255`. -/
lemma tally_X1 : tally X1 = List.replicate 255 1 ++ [32512] := by
  rw [tally, X1]
  rw [List.foldl_append, List.foldl_append, List.foldl_append]
  rw [tally_step_replicate, tally_step_replicate]
  decide

/-- The static model build on `X1` yields the table `rangesX1` and the
out-of-bound cumulative total 16512. -/
lemma build_X1 :
    build_probability_range_list
      { ArithmeticCode.mk_init true with infile_open := true, outfile_open := true }
      X1 = stX1 := by
  simp only [build_probability_range_list, tally_X1]
  decide

/-- Chunk 1 of the encode run on `X1`. -/
lemma encX1chunk1 :
    List.foldl encode_step (stX1, []) (List.replicate 80 255) = encX1snap80 :=
  encode_chunk_state stX1 ([] : List Bool) (List.replicate 80 255)
    27558 65108 0
    [true]
    rfl (by decide)

/-- Chunk 2 of the encode run on `X1`. -/
lemma encX1chunk2 :
    List.foldl encode_step encX1snap80 (List.replicate 80 255) = encX1snap160 :=
  encode_chunk_state encX1snap80.1 encX1snap80.2 (List.replicate 80 255)
    20288 63320 0
    [true, true, true]
    rfl (by decide)

/-- Chunk 3 of the encode run on `X1`. -/
lemma encX1chunk3 :
    List.foldl encode_step encX1snap160 (List.replicate 80 255) = encX1snap240 :=
  encode_chunk_state encX1snap160.1 encX1snap160.2 (List.replicate 80 255)
    6777 56091 0
    [true, true, true, true, true]
    rfl (by decide)

/-- Chunk 4 of the encode run on `X1`. -/
lemma encX1chunk4 :
    List.foldl encode_step encX1snap240 (List.replicate 80 255) = encX1snap320 :=
  encode_chunk_state encX1snap240.1 encX1snap240.2 (List.replicate 80 255)
    3346 59863 1
    [true, true, true, true, true, true]
    rfl (by decide)

/-- Chunk 5 of the encode run on `X1`. -/
lemma encX1chunk5 :
    List.foldl encode_step encX1snap320 (List.replicate 80 255) = encX1snap400 :=
  encode_chunk_state encX1snap320.1 encX1snap320.2 (List.replicate 80 255)
    21426 53811 0
    [true, true, true, true, true, true, true, false]
    rfl (by decide)

/-- Chunk 6 of the encode run on `X1`. -/
lemma encX1chunk6 :
    List.foldl encode_step encX1snap400 (List.replicate 80 255) = encX1snap480 :=
  encode_chunk_state encX1snap400.1 encX1snap400.2 (List.replicate 80 255)
    13840 50961 1
    [true, true, true, true, true, true, true, false, true]
    rfl (by decide)

/-- Chunk 7 of the encode run on `X1`. -/
lemma encX1chunk7 :
    List.foldl encode_step encX1snap480 (List.replicate 80 255) = encX1snap560 :=
  encode_chunk_state encX1snap480.1 encX1snap480.2 (List.replicate 80 255)
    14846 36113 0
    [true, true, true, true, true, true, true, false, true, true, false]
    rfl (by decide)

/-- Chunk 8 of the encode run on `X1`. -/
lemma encX1chunk8 :
    List.foldl encode_step encX1snap560 (List.replicate 80 255) = encX1snap640 :=
  encode_chunk_state encX1snap560.1 encX1snap560.2 (List.replicate 80 255)
    10190 58926 3
    [true, true, true, true, true, true, true, false, true, true, false]
    rfl (by decide)

/-- Chunk 9 of the encode run on `X1`. -/
lemma encX1chunk9 :
    List.foldl encode_step encX1snap640 (List.replicate 80 255) = encX1snap720 :=
  encode_chunk_state encX1snap640.1 encX1snap640.2 (List.replicate 80 255)
    24066 51993 0
    [true, true, true, true, true, true, true, false, true, true, false, true, false, false, false]
    rfl (by decide)

/-- Chunk 10 of the encode run on `X1`. -/
lemma encX1chunk10 :
    List.foldl encode_step encX1snap720 (List.replicate 80 255) = encX1snap800 :=
  encode_chunk_state encX1snap720.1 encX1snap720.2 (List.replicate 80 255)
    11718 43719 1
    [true, true, true, true, true, true, true, false, true, true, false, true, false, false, false, true]
    rfl (by decide)

/-- Chunk 11 of the encode run on `X1`. -/
lemma encX1chunk11 :
    List.foldl encode_step encX1snap800 (List.replicate 80 255) = encX1snap880 :=
  encode_chunk_state encX1snap800.1 encX1snap800.2 (List.replicate 80 255)
    6703 43377 0
    [true, true, true, true, true, true, true, false, true, true, false, true, false, false, false, true, true, false, false]
    rfl (by decide)

/-- Chunk 12 of the encode run on `X1`. -/
lemma encX1chunk12 :
    List.foldl encode_step encX1snap880 (List.replicate 80 255) = encX1snap960 :=
  encode_chunk_state encX1snap880.1 encX1snap880.2 (List.replicate 80 255)
    32717 53735 1
    [true, true, true, true, true, true, true, false, true, true, false, true, false, false, false, true, true, false, false]
    rfl (by decide)

/-- Chunk 13 of the encode run on `X1`. -/
lemma encX1chunk13 :
    List.foldl encode_step encX1snap960 (List.replicate 80 255) = encX1snap1040 :=
  encode_chunk_state encX1snap960.1 encX1snap960.2 (List.replicate 80 255)
    26725 50815 1
    [true, true, true, true, true, true, true, false, true, true, false, true, false, false, false, true, true, false, false, true, false]
    rfl (by decide)

/-- Chunk 14 of the encode run on `X1`. -/
lemma encX1chunk14 :
    List.foldl encode_step encX1snap1040 (List.replicate 80 255) = encX1snap1120 :=
  encode_chunk_state encX1snap1040.1 encX1snap1040.2 (List.replicate 80 255)
    11448 39048 1
    [true, true, true, true, true, true, true, false, true, true, false, true, false, false, false, true, true, false, false, true, false, true, false]
    rfl (by decide)

/-- Chunk 15 of the encode run on `X1`. -/
lemma encX1chunk15 :
    List.foldl encode_step encX1snap1120 (List.replicate 80 255) = encX1snap1200 :=
  encode_chunk_state encX1snap1120.1 encX1snap1120.2 (List.replicate 80 255)
    25883 57509 3
    [true, true, true, true, true, true, true, false, true, true, false, true, false, false, false, true, true, false, false, true, false, true, false]
    rfl (by decide)

/-- Chunk 16 of the encode run on `X1`. -/
lemma encX1chunk16 :
    List.foldl encode_step encX1snap1200 (List.replicate 80 255) = encX1snap1280 :=
  encode_chunk_state encX1snap1200.1 encX1snap1200.2 (List.replicate 80 255)
    31142 49265 0
    [true, true, true, true, true, true, true, false, true, true, false, true, false, false, false, true, true, false, false, true, false, true, false, true, false, false, false]
    rfl (by decide)

/-- Chunk 17 of the encode run on `X1`. -/
lemma encX1chunk17 :
    List.foldl encode_step encX1snap1280 (List.replicate 6 255) = encX1snap1286 :=
  encode_chunk_state encX1snap1280.1 encX1snap1280.2 (List.replicate 6 255)
    32754 49253 0
    [true, true, true, true, true, true, true, false, true, true, false, true, false, false, false, true, true, false, false, true, false, true, false, true, false, false, false]
    rfl (by decide)

/-- Chunk 18 of the encode run on `X1`. -/
lemma encX1chunk18 :
    List.foldl encode_step encX1snap1286 [0] = encX1snap1287 :=
  encode_chunk_state encX1snap1286.1 encX1snap1286.2 [0]
    32768 32767 0
    [true, true, true, true, true, true, true, false, true, true, false, true, false, false, false, true, true, false, false, true, false, true, false, true, false, false, false, false, true, true, true, true, true, true, true, true, true, true, true, false, false]
    rfl (by decide)



/-- Assembling the chunks: the state of the encode loop of `encode_file` on
`X1` right after the byte at position 1286. -/
lemma encX1prefix :
    List.foldl encode_step (stX1, []) (List.replicate 1286 255 ++ [0]) = encX1snap1287 := by
  rw [List.foldl_append]
  rw [show (1286 : Nat) = 80 + 1206 from rfl, List.replicate_add, List.foldl_append, encX1chunk1]
  rw [show (1206 : Nat) = 80 + 1126 from rfl, List.replicate_add, List.foldl_append, encX1chunk2]
  rw [show (1126 : Nat) = 80 + 1046 from rfl, List.replicate_add, List.foldl_append, encX1chunk3]
  rw [show (1046 : Nat) = 80 + 966 from rfl, List.replicate_add, List.foldl_append, encX1chunk4]
  rw [show (966 : Nat) = 80 + 886 from rfl, List.replicate_add, List.foldl_append, encX1chunk5]
  rw [show (886 : Nat) = 80 + 806 from rfl, List.replicate_add, List.foldl_append, encX1chunk6]
  rw [show (806 : Nat) = 80 + 726 from rfl, List.replicate_add, List.foldl_append, encX1chunk7]
  rw [show (726 : Nat) = 80 + 646 from rfl, List.replicate_add, List.foldl_append, encX1chunk8]
  rw [show (646 : Nat) = 80 + 566 from rfl, List.replicate_add, List.foldl_append, encX1chunk9]
  rw [show (566 : Nat) = 80 + 486 from rfl, List.replicate_add, List.foldl_append, encX1chunk10]
  rw [show (486 : Nat) = 80 + 406 from rfl, List.replicate_add, List.foldl_append, encX1chunk11]
  rw [show (406 : Nat) = 80 + 326 from rfl, List.replicate_add, List.foldl_append, encX1chunk12]
  rw [show (326 : Nat) = 80 + 246 from rfl, List.replicate_add, List.foldl_append, encX1chunk13]
  rw [show (246 : Nat) = 80 + 166 from rfl, List.replicate_add, List.foldl_append, encX1chunk14]
  rw [show (166 : Nat) = 80 + 86 from rfl, List.replicate_add, List.foldl_append, encX1chunk15]
  rw [show (86 : Nat) = 80 + 6 from rfl, List.replicate_add, List.foldl_append, encX1chunk16]
  rw [encX1chunk17, encX1chunk18]

/-- The first 1287 bytes of `X1` are 1286 copies of byte 255 and one byte 0. -/
lemma take_X1 : X1.take 1287 = List.replicate 1286 255 ++ [0] := by
  have hassoc : X1 = (List.replicate 1286 255 ++ [0]) ++
      (List.replicate 31226 255 ++ List.range' 1 254) := by
    rw [X1]; simp only [List.append_assoc]
  rw [hassoc]
  exact List.take_left' (by simp)

/-- C1.  The claim `decode(encode(X, mode), mode) == X` for every byte
sequence `X` is FALSE on this code, and the code (not the claim) is at
fault: the source's own unit tests assert exactly this round trip for
arbitrary files.  On the 32767-byte input `X1` the static model build sets
`_cumulative_prob = 16512 > MAX_PROBABILITY` (see `C2` below), and at
position 1286 the encode loop of `encode_file` scales the width-1 symbol `0`
to an empty interval: this theorem evaluates the encode loop (the
`List.foldl encode_step` of `encode_file`) over `X1.take 1287` starting from
the model-build state of `encode_file` and shows `upper < lower` there.
From that point the interval stays collapsed, the remaining 31480 input
bytes emit no output, and decoding the encoded file yields a stream that
differs from `X1` at byte position 1285 and never reaches the EOF
sentinel. -/
theorem encode_interval_collapses_on_X1 :
    (List.foldl encode_step
      (build_probability_range_list
        { ArithmeticCode.mk_init true with infile_open := true, outfile_open := true }
        X1, []) (X1.take 1287)).1.upper <
    (List.foldl encode_step
      (build_probability_range_list
        { ArithmeticCode.mk_init true with infile_open := true, outfile_open := true }
        X1, []) (X1.take 1287)).1.lower := by
  rw [build_X1, take_X1, encX1prefix]
  decide

/-- C2.  The claimed invariant `0 < cum_total <= MAX_CUM (16384)` is FALSE
on this code during static encode passes, and the code (not the claim) is
at fault: the constant's own comment says it "keeps lower and upper bounds
from crossing", and with the invariant broken the bounds do cross (see the
C1 theorem).  On the input `X1` (total 32767, `rescale_value = 2`), the 255
counts of 1 are clamped to 1 instead of halving, so the rescaled total is
`255 + 16256 = 16511` and the build leaves
`_cumulative_prob = 16512 > MAX_PROBABILITY`.  The state evaluated here is
the model-build state of `encode_file` on `X1`. -/
theorem static_build_cumulative_prob_overflows_on_X1 :
    (build_probability_range_list
      { ArithmeticCode.mk_init true with infile_open := true, outfile_open := true }
      X1).cumulative_prob = 16512 ∧
    MAX_PROBABILITY <
      (build_probability_range_list
        { ArithmeticCode.mk_init true with infile_open := true, outfile_open := true }
        X1).cumulative_prob := by
  rw [build_X1]
  exact ⟨rfl, by decide⟩


/-- The binary-search loop can only fail with `rangeLookup` or `fuelOut`,
never with `alreadyOpen`. -/
lemma gsfp_loop_not_alreadyOpen :
    ∀ (fuel : Nat) (R : List Int) (p : Int) (f l m : Int),
      get_symbol_from_probability_loop R p fuel f l m ≠ .error .alreadyOpen := by
  intro fuel
  induction fuel with
  | zero => intro R p f l m h; simp [get_symbol_from_probability_loop] at h
  | succ n ih =>
    intro R p f l m
    simp only [get_symbol_from_probability_loop]
    split
    · split
      · apply ih
      · split
        · apply ih
        · simp
    · simp

/-- The decode loop never fails with `alreadyOpen`. -/
lemma decode_loop_not_alreadyOpen :
    ∀ (fuel : Nat) (st : ArithmeticCode) (s : List Bool) (out : List Nat),
      decode_loop fuel st s out ≠ .error .alreadyOpen := by
  intro fuel
  induction fuel with
  | zero => intro st s out h; simp [decode_loop] at h
  | succ n ih =>
    intro st s out
    simp only [decode_loop]
    split
    next e heq =>
      intro hcontra
      simp only [Except.error.injEq] at hcontra
      subst hcontra
      exact gsfp_loop_not_alreadyOpen _ _ _ _ _ _ heq
    next c heq =>
      split
      · simp
      · apply ih

/-- The header-record loop never fails with `alreadyOpen`. -/
lemma read_header_loop_not_alreadyOpen :
    ∀ (fuel : Nat) (ranges : List Int) (cum : Int) (s : List Bool),
      read_header_loop fuel ranges cum s ≠ .error .alreadyOpen := by
  intro fuel
  induction fuel with
  | zero => intro ranges cum s h; simp [read_header_loop] at h
  | succ n ih =>
    intro ranges cum s
    simp only [read_header_loop]
    split
    · simp
    · split
      · simp
      · split
        · simp
        · split
          · simp
          · apply ih

/-- `read_header` never fails with `alreadyOpen`. -/
lemma read_header_not_alreadyOpen (s : List Bool) :
    read_header s ≠ .error .alreadyOpen := by
  rw [read_header]
  rcases h : read_header_loop (s.length + 1) (List.replicate (EOF_CHAR + 2) 0) 0 s
    with e | ⟨ranges, cum, s1⟩
  · intro hc
    simp only [Except.error.injEq] at hc
    subst hc
    exact read_header_loop_not_alreadyOpen _ _ _ _ h
  · simp

/-- C7.  `encode_file` and `decode_file` check `_infile`/`_outfile` first
(lines 259-260 and 651-652): with either stream bound they raise the
`alreadyOpen` `ValueError` — in this functional embedding the error result
carries no state and no output, mirroring that the source raises before
touching any coder state or file — and with both streams unbound the call
proceeds (it can never produce `alreadyOpen` from inside the pass). -/
theorem encode_decode_already_open_gate (st : ArithmeticCode) (input : List Nat)
    (bits : List Bool) (fuel : Nat) :
    ((st.infile_open = true ∨ st.outfile_open = true) →
      encode_file st input = .error .alreadyOpen ∧
      decode_file st bits fuel = .error .alreadyOpen) ∧
    (st.infile_open = false → st.outfile_open = false →
      encode_file st input ≠ .error .alreadyOpen ∧
      decode_file st bits fuel ≠ .error .alreadyOpen) := by
  constructor
  · intro h
    have hcond : (st.infile_open || st.outfile_open) = true := by
      rcases h with h | h <;> simp [h]
    constructor
    · simp [encode_file, hcond]
    · simp [decode_file, hcond]
  · intro h1 h2
    have hcond : (st.infile_open || st.outfile_open) = false := by simp [h1, h2]
    constructor
    · simp [encode_file, hcond]
    · rw [decode_file]
      simp only [hcond, Bool.false_eq_true, if_false]
      split
      next e heq =>
        intro hcontra
        simp only [Except.error.injEq] at hcontra
        subst hcontra
        by_cases hs : st.static_model = true
        · rw [if_pos hs] at heq
          exact read_header_not_alreadyOpen _ heq
        · rw [if_neg hs] at heq
          simp at heq
      next ranges cum s0 heq =>
        apply decode_loop_not_alreadyOpen

/-- Witness for C7 at concrete instances: a coder with a bound input stream
refuses to encode; a fresh coder does not fail with `alreadyOpen`. -/
theorem encode_decode_already_open_gate_witness :
    encode_file { ArithmeticCode.mk_init true with infile_open := true } [] =
      .error .alreadyOpen ∧
    decode_file (ArithmeticCode.mk_init true) [] 5 ≠ .error .alreadyOpen :=
  ⟨((encode_decode_already_open_gate
      { ArithmeticCode.mk_init true with infile_open := true } [] [] 5).1
      (Or.inl rfl)).1,
   ((encode_decode_already_open_gate (ArithmeticCode.mk_init true) [] [] 5).2
      rfl rfl).2⟩


/-- Folding more bytes into the tally never decreases a count slot. -/
lemma tally_foldl_getD_mono (l : List Nat) :
    ∀ (a : List Int) (c : Nat), a.getD c 0 ≤ (List.foldl tally_step a l).getD c 0 := by
  induction l with
  | nil => intro a c; simp
  | cons d ds ih =>
    intro a c
    rw [List.foldl_cons]
    refine le_trans ?_ (ih (tally_step a d) c)
    by_cases hcd : d = c
    · subst hcd
      by_cases hl : d < a.length
      · simp [tally_step, List.getD_eq_getElem?_getD, List.getElem?_set_self hl]
      · simp [tally_step, List.set_eq_of_length_le (Nat.le_of_not_lt hl)]
    · simp [tally_step, List.getD_eq_getElem?_getD, List.getElem?_set_ne hcd]

/-- One tally step at a different index leaves a count slot unchanged. -/
lemma tally_step_getD_ne (a : List Int) (d c : Nat) (h : d ≠ c) :
    (tally_step a d).getD c 0 = a.getD c 0 := by
  simp [tally_step, List.getD_eq_getElem?_getD, List.getElem?_set_ne h]

/-- `tally_step` preserves the list length. -/
lemma tally_step_length (a : List Int) (d : Nat) :
    (tally_step a d).length = a.length := by
  simp [tally_step]

/-- A byte that occurs in the tallied input ends with a strictly larger
count than it started with. -/
lemma tally_foldl_getD_pos (l : List Nat) :
    ∀ (a : List Int) (c : Nat), c ∈ l → c < a.length →
      a.getD c 0 + 1 ≤ (List.foldl tally_step a l).getD c 0 := by
  induction l with
  | nil => intro a c h; exact absurd h (List.not_mem_nil c)
  | cons d ds ih =>
    intro a c hm hl
    rw [List.foldl_cons]
    rcases List.mem_cons.mp hm with he | hm2
    · subst he
      refine le_trans ?_ (tally_foldl_getD_mono ds (tally_step a c) c)
      simp [tally_step, List.getD_eq_getElem?_getD, List.getElem?_set_self hl]
    · have hlen : c < (tally_step a d).length := by rw [tally_step_length]; exact hl
      refine le_trans ?_ (ih (tally_step a d) c hm2 hlen)
      by_cases hcd : d = c
      · subst hcd
        simp [tally_step, List.getD_eq_getElem?_getD, List.getElem?_set_self hl]
      · rw [tally_step_getD_ne a d c hcd]

/-- The tally list keeps length 256. -/
lemma tally_foldl_length (l : List Nat) :
    ∀ a : List Int, (List.foldl tally_step a l).length = a.length := by
  induction l with
  | nil => intro a; simp
  | cons d ds ih => intro a; rw [List.foldl_cons, ih, tally_step_length]

/-- Any slot of the all-zero tally start is zero. -/
lemma getD_replicate_zero (n i : Nat) : (List.replicate n (0:Int)).getD i 0 = 0 := by
  by_cases h : i < n
  · simp [List.getD_eq_getElem?_getD, List.getElem?_replicate, h]
  · exact List.getD_eq_default _ _ (by simpa using Nat.le_of_not_lt h)

/-- Tally counts are nonnegative. -/
lemma tally_getD_nonneg (input : List Nat) (i : Nat) :
    0 ≤ (tally input).getD i 0 := by
  rw [tally]
  have := tally_foldl_getD_mono input (List.replicate EOF_CHAR 0) i
  rwa [getD_replicate_zero] at this

/-- A byte of the input has a positive tally count. -/
lemma tally_getD_pos (input : List Nat) (b : Nat) (hb : b ∈ input)
    (hlt : b < EOF_CHAR) :
    0 < (tally input).getD b 0 := by
  have := tally_foldl_getD_pos input (List.replicate EOF_CHAR 0) b hb
    (by simpa using hlt)
  rw [getD_replicate_zero, tally] at *
  omega

/-- C4.  Whenever the tallied total reaches `MAX_PROBABILITY`, the static
rescale (lines 331-338) computes `rescale_value = total / MAX_PROBABILITY + 1`
and maps each positive count to `count / rescale_value` when
`count > rescale_value` and to `1` otherwise (zero counts stay zero), so
every byte value observed in the input keeps a count of at least 1. -/
theorem static_rescale_formula (input : List Nat)
    (h : MAX_PROBABILITY ≤ (tally input).sum) :
    (∀ i : Nat,
      (rescale_count_array (tally input)).getD i 0 =
        if 0 < (tally input).getD i 0 then
          (if (tally input).sum / MAX_PROBABILITY + 1 < (tally input).getD i 0 then
            (tally input).getD i 0 / ((tally input).sum / MAX_PROBABILITY + 1)
          else 1)
        else (tally input).getD i 0) ∧
    (∀ b ∈ input, b < EOF_CHAR →
      0 < (rescale_count_array (tally input)).getD b 0) := by
  have hM : (0:Int) < MAX_PROBABILITY := by norm_num [MAX_PROBABILITY]
  have hr1 : (1:Int) ≤ (tally input).sum / MAX_PROBABILITY + 1 := by
    have h0 : (0:Int) ≤ (tally input).sum / MAX_PROBABILITY :=
      Int.ediv_nonneg (le_trans (le_of_lt hM) h) (le_of_lt hM)
    omega
  have hfor : ∀ i : Nat,
      (rescale_count_array (tally input)).getD i 0 =
        if 0 < (tally input).getD i 0 then
          (if (tally input).sum / MAX_PROBABILITY + 1 < (tally input).getD i 0 then
            (tally input).getD i 0 / ((tally input).sum / MAX_PROBABILITY + 1)
          else 1)
        else (tally input).getD i 0 := by
    intro i
    have hv0 := tally_getD_nonneg input i
    rw [rescale_count_array, if_pos h]
    by_cases hi : i < (tally input).length
    · rw [List.getD_eq_getElem?_getD, List.getElem?_map,
        List.getElem?_eq_getElem hi]
      have hgd : (tally input)[i] = (tally input).getD i 0 := by
        rw [List.getD_eq_getElem?_getD, List.getElem?_eq_getElem hi]; rfl
      simp only [Option.map_some', Option.getD_some, hgd]
      split_ifs <;> first | rfl | omega
    · have hle := Nat.le_of_not_lt hi
      rw [List.getD_eq_default _ _ (by rwa [List.length_map]),
        List.getD_eq_default _ _ hle]
      norm_num
  refine ⟨hfor, ?_⟩
  intro b hb hblt
  have hpos := tally_getD_pos input b hb hblt
  rw [hfor b, if_pos hpos]
  split_ifs with hcase
  · have h1r : (1:Int) * ((tally input).sum / MAX_PROBABILITY + 1) ≤
        (tally input).getD b 0 := by omega
    have := (Int.le_ediv_iff_mul_le
      (show (0:Int) < (tally input).sum / MAX_PROBABILITY + 1 by omega)).mpr h1r
    omega
  · omega

/-- Witness for C4 on the input of 16384 zero bytes: the tallied total
reaches `MAX_PROBABILITY` and byte 0 keeps a positive count after the
rescale. -/
theorem static_rescale_formula_witness :
    MAX_PROBABILITY ≤ (tally (List.replicate 16384 0)).sum ∧
    0 < (rescale_count_array (tally (List.replicate 16384 0))).getD 0 0 := by
  have hsum : MAX_PROBABILITY ≤ (tally (List.replicate 16384 0)).sum := by
    rw [tally, tally_step_replicate]
    decide
  exact ⟨hsum, (static_rescale_formula (List.replicate 16384 0) hsum).2 0
    (List.mem_replicate.mpr ⟨by norm_num, rfl⟩) (by norm_num [EOF_CHAR])⟩


/-- The narrowed bounds `apply_symbol_range` installs, in either model mode
(the model update never touches `lower`/`upper`). -/
lemma apply_symbol_range_bounds (st : ArithmeticCode) (s : Nat) :
    (apply_symbol_range st s).lower =
      st.lower + st.ranges.getD s 0 * (st.upper - st.lower + 1) / st.cumulative_prob ∧
    (apply_symbol_range st s).upper =
      st.lower + st.ranges.getD (s + 1) 0 * (st.upper - st.lower + 1) / st.cumulative_prob - 1 := by
  constructor <;>
  · simp only [apply_symbol_range]
    split
    · rfl
    · split <;> rfl

/-- C3.  `get_unscaled_code` (lines 800-806) computes
`((code - lower + 1) * cum_total - 1) / width` with the `- 1` inside the
numerator of the floor division; with this placement it inverts the
floor-based narrowing of `apply_symbol_range`: whenever `code` lies inside
the interval narrowed for symbol `s`, the unscaled value lands in
`[R[s], R[s+1])`.  The final conjunct shows the other reading of the spec
sentence (subtracting 1 after the division) computes something else already
on a concrete state. -/
theorem get_unscaled_code_formula (st : ArithmeticCode) (s : Nat)
    (hcum : 0 < st.cumulative_prob)
    (hlu : st.lower ≤ st.upper)
    (hlo : (apply_symbol_range st s).lower ≤ st.code)
    (hhi : st.code ≤ (apply_symbol_range st s).upper) :
    get_unscaled_code st =
      ((st.code - st.lower + 1) * st.cumulative_prob - 1) /
        (st.upper - st.lower + 1) ∧
    st.ranges.getD s 0 ≤ get_unscaled_code st ∧
    get_unscaled_code st < st.ranges.getD (s + 1) 0 ∧
    ∃ st2 : ArithmeticCode,
      get_unscaled_code st2 ≠
        (st2.code - st2.lower + 1) * st2.cumulative_prob /
          (st2.upper - st2.lower + 1) - 1 := by
  obtain ⟨hL, hU⟩ := apply_symbol_range_bounds st s
  rw [hL] at hlo
  rw [hU] at hhi
  have hWpos : (0:Int) < st.upper - st.lower + 1 := by omega
  have hunsc : get_unscaled_code st =
      ((st.code - st.lower + 1) * st.cumulative_prob - 1) /
        (st.upper - st.lower + 1) := rfl
  refine ⟨hunsc, ?_, ?_, ?_⟩
  · -- R[s] ≤ unscaled
    have hqa : st.ranges.getD s 0 * (st.upper - st.lower + 1) / st.cumulative_prob ≤
        st.code - st.lower := by omega
    have hlt := Int.lt_ediv_add_one_mul_self
      (st.ranges.getD s 0 * (st.upper - st.lower + 1)) hcum
    have hmul : (st.ranges.getD s 0 * (st.upper - st.lower + 1) / st.cumulative_prob + 1) *
        st.cumulative_prob ≤ (st.code - st.lower + 1) * st.cumulative_prob :=
      mul_le_mul_of_nonneg_right (by omega) (le_of_lt hcum)
    have hnum : st.ranges.getD s 0 * (st.upper - st.lower + 1) ≤
        (st.code - st.lower + 1) * st.cumulative_prob - 1 := by linarith
    rw [hunsc]
    exact (Int.le_ediv_iff_mul_le hWpos).mpr hnum
  · -- unscaled < R[s+1]
    have hqb : st.code - st.lower + 1 ≤
        st.ranges.getD (s + 1) 0 * (st.upper - st.lower + 1) / st.cumulative_prob := by omega
    have hmul : (st.code - st.lower + 1) * st.cumulative_prob ≤
        (st.ranges.getD (s + 1) 0 * (st.upper - st.lower + 1) / st.cumulative_prob) *
          st.cumulative_prob :=
      mul_le_mul_of_nonneg_right hqb (le_of_lt hcum)
    have hdm : (st.ranges.getD (s + 1) 0 * (st.upper - st.lower + 1) / st.cumulative_prob) *
        st.cumulative_prob ≤ st.ranges.getD (s + 1) 0 * (st.upper - st.lower + 1) :=
      Int.ediv_mul_le _ (ne_of_gt hcum)
    have hnum : (st.code - st.lower + 1) * st.cumulative_prob - 1 ≤
        st.ranges.getD (s + 1) 0 * (st.upper - st.lower + 1) - 1 := by linarith
    have hdiv := Int.ediv_le_ediv hWpos hnum
    have hbw : (st.ranges.getD (s + 1) 0 * (st.upper - st.lower + 1) - 1) /
        (st.upper - st.lower + 1) = st.ranges.getD (s + 1) 0 - 1 := by
      have hrw : st.ranges.getD (s + 1) 0 * (st.upper - st.lower + 1) - 1 =
          (st.upper - st.lower + 1 - 1) +
            (st.upper - st.lower + 1) * (st.ranges.getD (s + 1) 0 - 1) := by ring
      rw [hrw, Int.add_mul_ediv_left _ _ (ne_of_gt hWpos),
        Int.ediv_eq_zero_of_lt (by omega) (by omega)]
      ring
    rw [hunsc]
    omega
  · exact ⟨paren_demo_state, by decide⟩

/-- Witness for C3 on `demo_state` with symbol 0: the hypotheses hold and
the unscaled value of code 0 lies in `[R[0], R[1]) = [0, 1)`. -/
theorem get_unscaled_code_formula_witness :
    (0 < demo_state.cumulative_prob ∧ demo_state.lower ≤ demo_state.upper ∧
      (apply_symbol_range demo_state 0).lower ≤ demo_state.code ∧
      demo_state.code ≤ (apply_symbol_range demo_state 0).upper) ∧
    demo_state.ranges.getD 0 0 ≤ get_unscaled_code demo_state ∧
    get_unscaled_code demo_state < demo_state.ranges.getD 1 0 := by
  have h1 : (0:Int) < demo_state.cumulative_prob := by decide
  have h2 : demo_state.lower ≤ demo_state.upper := by decide
  have h3 : (apply_symbol_range demo_state 0).lower ≤ demo_state.code := by decide
  have h4 : demo_state.code ≤ (apply_symbol_range demo_state 0).upper := by decide
  have h := get_unscaled_code_formula demo_state 0 h1 h2 h3 h4
  exact ⟨⟨h1, h2, h3, h4⟩, h.2.1, h.2.2.1⟩


/-- `rescale_walk` preserves the list length. -/
lemma rescale_walk_length : ∀ (xs : List Int) (po pn : Int),
    (rescale_walk po pn xs).length = xs.length := by
  intro xs
  induction xs with
  | nil => intro po pn; rfl
  | cons x xs ih => intro po pn; simp only [rescale_walk, List.length_cons, ih]

/-- The first slot the rescale walk writes. -/
lemma rescale_walk_head (xs : List Int) (po pn : Int) (h : 0 < xs.length) :
    (rescale_walk po pn xs).getD 0 0 =
      pn + (if xs.getD 0 0 - po ≤ 2 then 1 else (xs.getD 0 0 - po) / 2) := by
  cases xs with
  | nil => simp at h
  | cons x xs => simp [rescale_walk, List.getD_cons_zero]

/-- Consecutive slots of the rescale walk differ by the halved pre-rescale
width. -/
lemma rescale_walk_chain : ∀ (xs : List Int) (po pn : Int) (j : Nat),
    j + 1 < xs.length →
    (rescale_walk po pn xs).getD (j + 1) 0 =
      (rescale_walk po pn xs).getD j 0 +
        (if xs.getD (j + 1) 0 - xs.getD j 0 ≤ 2 then 1
         else (xs.getD (j + 1) 0 - xs.getD j 0) / 2) := by
  intro xs
  induction xs with
  | nil => intro po pn j h; simp at h
  | cons x xs ih =>
    intro po pn j h
    cases j with
    | zero =>
      have hx : 0 < xs.length := by simpa using h
      simp only [rescale_walk, List.getD_cons_succ, List.getD_cons_zero]
      exact rescale_walk_head xs x _ hx
    | succ k =>
      have hk : k + 1 < xs.length := by simpa using h
      simp only [rescale_walk, List.getD_cons_succ]
      exact ih x _ k hk

/-- The halving increment is always at least 1 (no symbol is erased). -/
lemma rescale_inc_pos (delta : Int) :
    1 ≤ (if delta ≤ 2 then (1:Int) else delta / 2) := by
  split_ifs with h
  · exact le_refl 1
  · exact (Int.le_ediv_iff_mul_le (by norm_num)).mpr (by omega)

/-- Slot `i` of the adaptive increment pass (the `ranges[i] += 1` loop for
`i >= symbol + 1`). -/
lemma mapIdx_bump_getD (l : List Int) (k i : Nat) :
    (l.mapIdx (fun i v => if k ≤ i then v + 1 else v)).getD i 0 =
      if i < l.length then
        (if k ≤ i then l.getD i 0 + 1 else l.getD i 0)
      else 0 := by
  by_cases h : i < l.length
  · rw [List.getD_eq_getElem?_getD, List.getElem?_mapIdx, List.getElem?_eq_getElem h]
    have hgd : l[i] = l.getD i 0 := by
      rw [List.getD_eq_getElem?_getD, List.getElem?_eq_getElem h]; rfl
    simp only [Option.map_some', Option.getD_some, hgd, if_pos h]
  · rw [List.getD_eq_default _ _ (by simpa [List.length_mapIdx] using Nat.le_of_not_lt h),
      if_neg h]

/-- In adaptive mode below the rescale threshold, `apply_symbol_range`
installs the bumped table and increments the cumulative total. -/
lemma apply_adaptive_no_rescale (st : ArithmeticCode) (s : Nat)
    (hst : st.static_model = false) (hlt : st.cumulative_prob + 1 < MAX_PROBABILITY) :
    (apply_symbol_range st s).ranges =
      st.ranges.mapIdx (fun i v => if s + 1 ≤ i then v + 1 else v) ∧
    (apply_symbol_range st s).cumulative_prob = st.cumulative_prob + 1 := by
  simp only [apply_symbol_range]
  rw [if_neg (by simp [hst]), if_neg (not_le.mpr hlt)]
  exact ⟨rfl, rfl⟩

/-- In adaptive mode at the rescale threshold, `apply_symbol_range` runs the
halving walk over the bumped table and rereads the cumulative total from
slot 257. -/
lemma apply_adaptive_rescale (st : ArithmeticCode) (s : Nat)
    (hst : st.static_model = false) (hge : MAX_PROBABILITY ≤ st.cumulative_prob + 1) :
    (apply_symbol_range st s).ranges =
      (match st.ranges.mapIdx (fun i v => if s + 1 ≤ i then v + 1 else v) with
       | [] => []
       | r0 :: rest => r0 :: rescale_walk 0 r0 rest) ∧
    (apply_symbol_range st s).cumulative_prob =
      (apply_symbol_range st s).ranges.getD (EOF_CHAR + 1) 0 := by
  simp only [apply_symbol_range]
  rw [if_neg (by simp [hst]), if_pos hge]
  exact ⟨rfl, rfl⟩

/-- C5.  The adaptive model update of `apply_symbol_range` (lines 492-512):
below the threshold it increments exactly the slots `R[i]` with `i > s` and
bumps `cum_total` by one; at the threshold (`cum_total + 1 >= MAX_CUM`) it
additionally walks `i = 1 .. 257` setting `R[i] = R[i-1] + 1` when the
pre-rescale (post-increment) width `delta` is at most 2 and
`R[i] = R[i-1] + delta / 2` otherwise, then rereads `cum_total = R[257]`;
after the rescale every width is still at least 1.  (`R[0] = 0` is the
loop's hard-coded `original = 0` seed, true of every reachable table.) -/
theorem adaptive_update_spec (st : ArithmeticCode) (s : Nat)
    (hst : st.static_model = false)
    (hlen : st.ranges.length = 258)
    (h0 : st.ranges.getD 0 0 = 0) :
    (st.cumulative_prob + 1 < MAX_PROBABILITY →
      (apply_symbol_range st s).cumulative_prob = st.cumulative_prob + 1 ∧
      ∀ i : Nat, i < 258 →
        (apply_symbol_range st s).ranges.getD i 0 =
          st.ranges.getD i 0 + (if s < i then 1 else 0)) ∧
    (MAX_PROBABILITY ≤ st.cumulative_prob + 1 →
      (apply_symbol_range st s).ranges.getD 0 0 = 0 ∧
      (∀ i : Nat, 1 ≤ i → i < 258 →
        (apply_symbol_range st s).ranges.getD i 0 =
          (apply_symbol_range st s).ranges.getD (i - 1) 0 +
            (if (st.ranges.getD i 0 + (if s < i then 1 else 0)) -
                (st.ranges.getD (i - 1) 0 + (if s < i - 1 then 1 else 0)) ≤ 2
             then 1
             else ((st.ranges.getD i 0 + (if s < i then 1 else 0)) -
                (st.ranges.getD (i - 1) 0 + (if s < i - 1 then 1 else 0))) / 2)) ∧
      (apply_symbol_range st s).cumulative_prob =
        (apply_symbol_range st s).ranges.getD 257 0 ∧
      (∀ i : Nat, i < 257 →
        (apply_symbol_range st s).ranges.getD i 0 + 1 ≤
          (apply_symbol_range st s).ranges.getD (i + 1) 0)) := by
  have hBlen : (st.ranges.mapIdx (fun i v => if s + 1 ≤ i then v + 1 else v)).length
      = 258 := by rw [List.length_mapIdx, hlen]
  have hBgetD : ∀ i : Nat, i < 258 →
      (st.ranges.mapIdx (fun i v => if s + 1 ≤ i then v + 1 else v)).getD i 0 =
        st.ranges.getD i 0 + (if s < i then 1 else 0) := by
    intro i hi
    rw [mapIdx_bump_getD, if_pos (by omega)]
    split_ifs <;> omega
  constructor
  · intro hlt
    obtain ⟨hr, hc⟩ := apply_adaptive_no_rescale st s hst hlt
    refine ⟨hc, ?_⟩
    intro i hi
    rw [hr]
    exact hBgetD i hi
  · intro hge
    obtain ⟨hr, hc⟩ := apply_adaptive_rescale st s hst hge
    rcases hB : st.ranges.mapIdx (fun i v => if s + 1 ≤ i then v + 1 else v)
      with _ | ⟨b0, rest⟩
    · rw [hB] at hBlen; simp at hBlen
    · have hr2 : (apply_symbol_range st s).ranges = b0 :: rescale_walk 0 b0 rest := by
        rw [hr, hB]
      have hrestlen : rest.length = 257 := by
        rw [hB] at hBlen; simpa using hBlen
      have hb0 : b0 = 0 := by
        have := hBgetD 0 (by norm_num)
        rw [hB, h0] at this
        simpa using this
      have hrest : ∀ j : Nat, j < 257 →
          rest.getD j 0 = st.ranges.getD (j + 1) 0 + (if s < j + 1 then 1 else 0) := by
        intro j hj
        have := hBgetD (j + 1) (by omega)
        rw [hB] at this
        simpa using this
      have hrec : ∀ i : Nat, 1 ≤ i → i < 258 →
          (apply_symbol_range st s).ranges.getD i 0 =
            (apply_symbol_range st s).ranges.getD (i - 1) 0 +
              (if (st.ranges.getD i 0 + (if s < i then 1 else 0)) -
                  (st.ranges.getD (i - 1) 0 + (if s < i - 1 then 1 else 0)) ≤ 2
               then 1
               else ((st.ranges.getD i 0 + (if s < i then 1 else 0)) -
                  (st.ranges.getD (i - 1) 0 + (if s < i - 1 then 1 else 0))) / 2) := by
        intro i h1 h2
        rw [hr2]
        rcases i with _ | j
        · omega
        · rcases j with _ | k
          · -- i = 1
            show (b0 :: rescale_walk 0 b0 rest).getD 1 0 = _
            simp only [List.getD_cons_succ, List.getD_cons_zero, Nat.sub_self]
            rw [rescale_walk_head rest 0 b0 (by omega)]
            rw [hrest 0 (by omega)]
            have hs0 : (if s < 0 then (1:Int) else 0) = 0 := by simp
            rw [hb0, h0, hs0]
            norm_num
          · -- i = k + 2
            simp only [List.getD_cons_succ, Nat.add_sub_cancel]
            rw [rescale_walk_chain rest 0 b0 k (by omega)]
            rw [hrest (k + 1) (by omega), hrest k (by omega)]
      refine ⟨?_, hrec, ?_, ?_⟩
      · rw [hr2]
        simpa using hb0
      · exact hc
      · intro i hi
        have := hrec (i + 1) (by omega) (by omega)
        simp only [Nat.add_sub_cancel] at this
        rw [this]
        have := rescale_inc_pos ((st.ranges.getD (i + 1) 0 + (if s < i + 1 then 1 else 0)) -
          (st.ranges.getD i 0 + (if s < i then 1 else 0)))
        omega

/-- Witness for C5 from the freshly initialized adaptive model (cumulative
total 257, below the threshold): applying symbol 0 bumps the total to 258. -/
theorem adaptive_update_spec_witness :
    ((initialize_adaptive_probability_range_list (ArithmeticCode.mk_init false)).static_model
        = false ∧
      (initialize_adaptive_probability_range_list
        (ArithmeticCode.mk_init false)).ranges.length = 258 ∧
      (initialize_adaptive_probability_range_list
        (ArithmeticCode.mk_init false)).ranges.getD 0 0 = 0) ∧
    (apply_symbol_range
        (initialize_adaptive_probability_range_list (ArithmeticCode.mk_init false))
        0).cumulative_prob =
      (initialize_adaptive_probability_range_list
        (ArithmeticCode.mk_init false)).cumulative_prob + 1 := by
  have h1 : (initialize_adaptive_probability_range_list
      (ArithmeticCode.mk_init false)).static_model = false := rfl
  have h2 : (initialize_adaptive_probability_range_list
      (ArithmeticCode.mk_init false)).ranges.length = 258 := by decide
  have h3 : (initialize_adaptive_probability_range_list
      (ArithmeticCode.mk_init false)).ranges.getD 0 0 = 0 := by decide
  have hlt : (initialize_adaptive_probability_range_list
      (ArithmeticCode.mk_init false)).cumulative_prob + 1 < MAX_PROBABILITY := by decide
  exact ⟨⟨h1, h2, h3⟩,
    ((adaptive_update_spec (initialize_adaptive_probability_range_list
      (ArithmeticCode.mk_init false)) 0 h1 h2 h3).1 hlt).1⟩


/-- `read_encoded_bits` changes only `lower`, `upper`, `code` (the model
fields are untouched). -/
lemma read_encoded_bits_fields (st : ArithmeticCode) (s : List Bool) :
    (read_encoded_bits st s).1.ranges = st.ranges ∧
    (read_encoded_bits st s).1.cumulative_prob = st.cumulative_prob ∧
    (read_encoded_bits st s).1.static_model = st.static_model := by
  rw [read_encoded_bits]
  cases h : read_encoded_bits_loop 16 st.lower st.upper st.code s with
  | none => exact ⟨rfl, rfl, rfl⟩
  | some r => obtain ⟨l, u, c, s1⟩ := r; exact ⟨rfl, rfl, rfl⟩

/-- The adaptive model update of `apply_symbol_range` depends only on the
model fields (`_ranges`, `_cumulative_prob`) and the symbol, not on the
interval state. -/
lemma apply_model_congr (st1 st2 : ArithmeticCode) (s : Nat)
    (hR : st1.ranges = st2.ranges) (hC : st1.cumulative_prob = st2.cumulative_prob)
    (hs1 : st1.static_model = false) (hs2 : st2.static_model = false) :
    (apply_symbol_range st1 s).ranges = (apply_symbol_range st2 s).ranges ∧
    (apply_symbol_range st1 s).cumulative_prob =
      (apply_symbol_range st2 s).cumulative_prob ∧
    (apply_symbol_range st1 s).static_model = false ∧
    (apply_symbol_range st2 s).static_model = false := by
  simp only [apply_symbol_range]
  rw [if_neg (show ¬ st1.static_model = true by simp [hs1]),
    if_neg (show ¬ st2.static_model = true by simp [hs2])]
  rw [hR, hC]
  split_ifs <;> exact ⟨rfl, rfl, hs1, hs2⟩

/-- C8.  Adaptive sync: starting from coders with identical model fields
(as `encode_file` and `decode_file` do — both call
`initialize_adaptive_probability_range_list`), after processing the same
`k` symbols through the encoder's per-symbol step
(`apply_symbol_range; write_encoded_bits`) and the decoder's per-symbol
step (`apply_symbol_range; read_encoded_bits`), the two cumulative tables
and cumulative totals are equal, whatever the interval states and bit
streams: the model update reads only the model fields, and the
renormalization loops never touch them. -/
theorem adaptive_model_sync (syms : List Nat) :
    ∀ (stE stD : ArithmeticCode) (bitsE bitsD : List Bool),
      stE.ranges = stD.ranges → stE.cumulative_prob = stD.cumulative_prob →
      stE.static_model = false → stD.static_model = false →
      (List.foldl encode_step (stE, bitsE) syms).1.ranges =
        (List.foldl decode_apply_step (stD, bitsD) syms).1.ranges ∧
      (List.foldl encode_step (stE, bitsE) syms).1.cumulative_prob =
        (List.foldl decode_apply_step (stD, bitsD) syms).1.cumulative_prob := by
  induction syms with
  | nil => intro stE stD bE bD hR hC _ _; exact ⟨hR, hC⟩
  | cons c cs ih =>
    intro stE stD bE bD hR hC hsE hsD
    rw [List.foldl_cons, List.foldl_cons]
    obtain ⟨haR, haC, haE, haD⟩ := apply_model_congr stE stD c hR hC hsE hsD
    obtain ⟨hw1, hw2, _, _, _, hw6⟩ :=
      write_encoded_bits_fields (apply_symbol_range stE c)
    obtain ⟨hr1, hr2, hr3⟩ :=
      read_encoded_bits_fields (apply_symbol_range stD c) bD
    exact ih (encode_step (stE, bE) c).1 (decode_apply_step (stD, bD) c).1
      (encode_step (stE, bE) c).2 (decode_apply_step (stD, bD) c).2
      (by rw [show (encode_step (stE, bE) c).1.ranges =
            (apply_symbol_range stE c).ranges from hw1,
          show (decode_apply_step (stD, bD) c).1.ranges =
            (apply_symbol_range stD c).ranges from hr1, haR])
      (by rw [show (encode_step (stE, bE) c).1.cumulative_prob =
            (apply_symbol_range stE c).cumulative_prob from hw2,
          show (decode_apply_step (stD, bD) c).1.cumulative_prob =
            (apply_symbol_range stD c).cumulative_prob from hr2, haC])
      (by rw [show (encode_step (stE, bE) c).1.static_model =
            (apply_symbol_range stE c).static_model from hw6]; exact haE)
      (by rw [show (decode_apply_step (stD, bD) c).1.static_model =
            (apply_symbol_range stD c).static_model from hr3]; exact haD)

/-- Witness for C8: two symbols through the encoder-side and decoder-side
steps from the freshly initialized adaptive model. -/
theorem adaptive_model_sync_witness :
    (List.foldl encode_step
      (initialize_adaptive_probability_range_list (ArithmeticCode.mk_init false), [])
      [65, 66]).1.ranges =
    (List.foldl decode_apply_step
      (initialize_adaptive_probability_range_list (ArithmeticCode.mk_init false), [])
      [65, 66]).1.ranges ∧
    (List.foldl encode_step
      (initialize_adaptive_probability_range_list (ArithmeticCode.mk_init false), [])
      [65, 66]).1.cumulative_prob =
    (List.foldl decode_apply_step
      (initialize_adaptive_probability_range_list (ArithmeticCode.mk_init false), [])
      [65, 66]).1.cumulative_prob :=
  adaptive_model_sync [65, 66]
    (initialize_adaptive_probability_range_list (ArithmeticCode.mk_init false))
    (initialize_adaptive_probability_range_list (ArithmeticCode.mk_init false))
    [] [] rfl rfl rfl rfl


/-- Width-doubling termination of the encoder renormalization loop: from a
16-bit state whose width times `2 ^ fuel` exceeds `2 ^ 15`, the loop
finishes within `fuel` shifting iterations (each iteration doubles the
width `upper - lower + 1`, and an iteration only runs while the width is at
most `2 ^ 15`). -/
lemma write_encoded_bits_loop_total :
    ∀ (fuel : Nat) (l u : Int) (uf : Nat),
      0 ≤ l → l ≤ u → u ≤ 65535 → 2 ^ 15 < (u - l + 1) * 2 ^ fuel →
      (write_encoded_bits_loop fuel l u uf).isSome := by
  intro fuel
  induction fuel with
  | zero =>
    intro l u uf h0 h1 h2 hw
    norm_num at hw
    have hE1 : ¬ (pybit u 15 = pybit l 15) := by
      simp only [pybit]
      norm_num
      omega
    have hE3 : ¬ (pybit u 14 = 0 ∧ pybit l 14 = 1) := by
      simp only [pybit]
      norm_num
      omega
    rw [write_encoded_bits_loop, if_neg hE1, if_neg hE3]
    simp
  | succ f ih =>
    intro l u uf h0 h1 h2 hw
    rw [write_encoded_bits_loop]
    by_cases hE1 : pybit u 15 = pybit l 15
    · rw [if_pos hE1]
      simp only []
      have hb : (u / 2 ^ 15) % 2 = (l / 2 ^ 15) % 2 := by
        simpa [pybit] using hE1
      have hrec := ih (2 * (l % 2 ^ 15)) (2 * (u % 2 ^ 15) + 1) 0
        (by norm_num at hb ⊢; omega)
        (by norm_num at hb ⊢; omega)
        (by norm_num at hb ⊢; omega)
        (by
          have hdw : 2 * (u % 2 ^ 15) + 1 - 2 * (l % 2 ^ 15) + 1 = 2 * (u - l + 1) := by
            norm_num at hb ⊢
            omega
          rw [hdw]
          calc (2:Int) ^ 15 < (u - l + 1) * 2 ^ (f + 1) := hw
            _ = 2 * (u - l + 1) * 2 ^ f := by rw [pow_succ]; ring)
      obtain ⟨r, hr⟩ := Option.isSome_iff_exists.mp hrec
      obtain ⟨l2, u2, uf2, bits⟩ := r
      rw [hr]
      simp
    · rw [if_neg hE1]
      by_cases hE3 : pybit u 14 = 0 ∧ pybit l 14 = 1
      · rw [if_pos hE3]
        simp only []
        have hb15 : ¬ (u / 2 ^ 15) % 2 = (l / 2 ^ 15) % 2 := by
          simpa [pybit] using hE1
        have hb14u : (u / 2 ^ 14) % 2 = 0 := by simpa [pybit] using hE3.1
        have hb14l : (l / 2 ^ 14) % 2 = 1 := by simpa [pybit] using hE3.2
        have hrec := ih
          (2 * ((l - 2 ^ 15 * pybit l 15 - 2 ^ 14 * pybit l 14) % 2 ^ 15))
          (2 * ((u + 2 ^ 14 * (1 - pybit u 14)) % 2 ^ 15) + 1) (uf + 1)
          (by simp only [pybit]; norm_num at hb15 hb14u hb14l ⊢; omega)
          (by simp only [pybit]; norm_num at hb15 hb14u hb14l ⊢; omega)
          (by simp only [pybit]; norm_num at hb15 hb14u hb14l ⊢; omega)
          (by
            simp only [pybit]
            have hdw : 2 * ((u + 2 ^ 14 * (1 - (u / 2 ^ 14) % 2)) % 2 ^ 15) + 1 -
                2 * ((l - 2 ^ 15 * ((l / 2 ^ 15) % 2) -
                  2 ^ 14 * ((l / 2 ^ 14) % 2)) % 2 ^ 15) + 1 = 2 * (u - l + 1) := by
              norm_num at hb15 hb14u hb14l ⊢
              omega
            rw [hdw]
            calc (2:Int) ^ 15 < (u - l + 1) * 2 ^ (f + 1) := hw
              _ = 2 * (u - l + 1) * 2 ^ f := by rw [pow_succ]; ring)
        obtain ⟨r, hr⟩ := Option.isSome_iff_exists.mp hrec
        obtain ⟨l2, u2, uf2, bits⟩ := r
        rw [hr]
        simp
      · rw [if_neg hE3]
        simp

/-- Width-doubling termination of the decoder renormalization loop: the
same argument as `write_encoded_bits_loop_total` (the branch conditions and
the `lower`/`upper` updates are identical; `code` and the input stream do
not influence termination). -/
lemma read_encoded_bits_loop_total :
    ∀ (fuel : Nat) (l u c : Int) (s : List Bool),
      0 ≤ l → l ≤ u → u ≤ 65535 → 2 ^ 15 < (u - l + 1) * 2 ^ fuel →
      (read_encoded_bits_loop fuel l u c s).isSome := by
  intro fuel
  induction fuel with
  | zero =>
    intro l u c s h0 h1 h2 hw
    norm_num at hw
    have hE1 : ¬ (pybit u 15 = pybit l 15) := by
      simp only [pybit]
      norm_num
      omega
    have hE3 : ¬ (pybit u 14 = 0 ∧ pybit l 14 = 1) := by
      simp only [pybit]
      norm_num
      omega
    rw [read_encoded_bits_loop, if_neg hE1, if_neg hE3]
    simp
  | succ f ih =>
    intro l u c s h0 h1 h2 hw
    rw [read_encoded_bits_loop]
    have hwnext : ∀ hdw : 2 * (u % 2 ^ 15) + 1 - 2 * (l % 2 ^ 15) + 1 = 2 * (u - l + 1),
        2 ^ 15 < (2 * (u % 2 ^ 15) + 1 - 2 * (l % 2 ^ 15) + 1) * 2 ^ f := by
      intro hdw
      rw [hdw]
      calc (2:Int) ^ 15 < (u - l + 1) * 2 ^ (f + 1) := hw
        _ = 2 * (u - l + 1) * 2 ^ f := by rw [pow_succ]; ring
    by_cases hE1 : pybit u 15 = pybit l 15
    · rw [if_pos hE1]
      simp only []
      have hb : (u / 2 ^ 15) % 2 = (l / 2 ^ 15) % 2 := by
        simpa [pybit] using hE1
      have harg1 : (0:Int) ≤ 2 * (l % 2 ^ 15) := by norm_num at hb ⊢; omega
      have harg2 : 2 * (l % 2 ^ 15) ≤ 2 * (u % 2 ^ 15) + 1 := by
        norm_num at hb ⊢; omega
      have harg3 : 2 * (u % 2 ^ 15) + 1 ≤ 65535 := by norm_num at hb ⊢; omega
      have harg4 : 2 ^ 15 < (2 * (u % 2 ^ 15) + 1 - 2 * (l % 2 ^ 15) + 1) * 2 ^ f :=
        hwnext (by norm_num at hb ⊢; omega)
      cases hs : get_bit s with
      | none =>
        have hrec := ih (2 * (l % 2 ^ 15)) (2 * (u % 2 ^ 15) + 1)
          (2 * (c % 2 ^ 15)) [] harg1 harg2 harg3 harg4
        obtain ⟨r, hr⟩ := Option.isSome_iff_exists.mp hrec
        obtain ⟨l2, u2, c2, s2⟩ := r
        dsimp only
        rw [hr]
        simp
      | some p =>
        obtain ⟨b, rest⟩ := p
        have hrec := ih (2 * (l % 2 ^ 15)) (2 * (u % 2 ^ 15) + 1)
          (2 * (c % 2 ^ 15) + (if b then 1 else 0)) rest harg1 harg2 harg3 harg4
        obtain ⟨r, hr⟩ := Option.isSome_iff_exists.mp hrec
        obtain ⟨l2, u2, c2, s2⟩ := r
        dsimp only
        rw [hr]
        simp
    · rw [if_neg hE1]
      by_cases hE3 : pybit u 14 = 0 ∧ pybit l 14 = 1
      · rw [if_pos hE3]
        simp only []
        have hb15 : ¬ (u / 2 ^ 15) % 2 = (l / 2 ^ 15) % 2 := by
          simpa [pybit] using hE1
        have hb14u : (u / 2 ^ 14) % 2 = 0 := by simpa [pybit] using hE3.1
        have hb14l : (l / 2 ^ 14) % 2 = 1 := by simpa [pybit] using hE3.2
        have harg1 : (0:Int) ≤
            2 * ((l - 2 ^ 15 * pybit l 15 - 2 ^ 14 * pybit l 14) % 2 ^ 15) := by
          simp only [pybit]; norm_num at hb15 hb14u hb14l ⊢; omega
        have harg2 : 2 * ((l - 2 ^ 15 * pybit l 15 - 2 ^ 14 * pybit l 14) % 2 ^ 15) ≤
            2 * ((u + 2 ^ 14 * (1 - pybit u 14)) % 2 ^ 15) + 1 := by
          simp only [pybit]; norm_num at hb15 hb14u hb14l ⊢; omega
        have harg3 : 2 * ((u + 2 ^ 14 * (1 - pybit u 14)) % 2 ^ 15) + 1 ≤ 65535 := by
          simp only [pybit]; norm_num at hb15 hb14u hb14l ⊢; omega
        have harg4 : 2 ^ 15 <
            (2 * ((u + 2 ^ 14 * (1 - pybit u 14)) % 2 ^ 15) + 1 -
              2 * ((l - 2 ^ 15 * pybit l 15 - 2 ^ 14 * pybit l 14) % 2 ^ 15) + 1) *
              2 ^ f := by
          have hdw : 2 * ((u + 2 ^ 14 * (1 - pybit u 14)) % 2 ^ 15) + 1 -
              2 * ((l - 2 ^ 15 * pybit l 15 - 2 ^ 14 * pybit l 14) % 2 ^ 15) + 1 =
              2 * (u - l + 1) := by
            simp only [pybit]; norm_num at hb15 hb14u hb14l ⊢; omega
          rw [hdw]
          calc (2:Int) ^ 15 < (u - l + 1) * 2 ^ (f + 1) := hw
            _ = 2 * (u - l + 1) * 2 ^ f := by rw [pow_succ]; ring
        cases hs : get_bit s with
        | none =>
          have hrec := ih _ _ (2 * ((c + 2 ^ 14 * (1 - 2 * pybit c 14)) % 2 ^ 15)) []
            harg1 harg2 harg3 harg4
          obtain ⟨r, hr⟩ := Option.isSome_iff_exists.mp hrec
          obtain ⟨l2, u2, c2, s2⟩ := r
          dsimp only
          rw [hr]
          simp
        | some p =>
          obtain ⟨b, rest⟩ := p
          have hrec := ih _ _
            (2 * ((c + 2 ^ 14 * (1 - 2 * pybit c 14)) % 2 ^ 15) + (if b then 1 else 0))
            rest harg1 harg2 harg3 harg4
          obtain ⟨r, hr⟩ := Option.isSome_iff_exists.mp hrec
          obtain ⟨l2, u2, c2, s2⟩ := r
          dsimp only
          rw [hr]
          simp
      · rw [if_neg hE3]
        simp

/-- C9.  From any state with `0 <= lower <= upper <= 0xFFFF`, the
renormalization loops of `write_encoded_bits` and `read_encoded_bits`
terminate within `PRECISION = 16` shifting iterations: each E1/E2 or E3
iteration doubles the width `upper - lower + 1 >= 1`, an iteration only
runs while the width is at most `2 ^ 15`, and the width is bounded by
`2 ^ PRECISION` — so fuel 16 (one unit per shifting iteration) always
returns a result. -/
theorem renormalization_terminates (lower upper code : Int) (underflow : Nat)
    (h0 : 0 ≤ lower) (h1 : lower ≤ upper) (h2 : upper ≤ 0xFFFF) :
    (write_encoded_bits_loop 16 lower upper underflow).isSome ∧
    ∀ s : List Bool, (read_encoded_bits_loop 16 lower upper code s).isSome := by
  have h2n : upper ≤ 65535 := h2
  have hw : (2:Int) ^ 15 < (upper - lower + 1) * 2 ^ 16 := by
    norm_num
    omega
  exact ⟨write_encoded_bits_loop_total 16 lower upper underflow h0 h1 h2n hw,
    fun s => read_encoded_bits_loop_total 16 lower upper code s h0 h1 h2n hw⟩

/-- Witness for C9 at the initial coder state `lower = 0, upper = 0xFFFF`. -/
theorem renormalization_terminates_witness :
    ((0:Int) ≤ 0 ∧ (0:Int) ≤ 65535 ∧ (65535:Int) ≤ 0xFFFF) ∧
    (write_encoded_bits_loop 16 0 65535 0).isSome :=
  ⟨⟨le_refl 0, by norm_num, by norm_num⟩,
    (renormalization_terminates 0 65535 0 0 (by norm_num) (by norm_num)
      (by norm_num)).1⟩


/-- Chained monotonicity of the cumulative table. -/
lemma ranges_mono_le (R : List Int)
    (hmono : ∀ i : Nat, i < 257 → R.getD i 0 ≤ R.getD (i + 1) 0) :
    ∀ i j : Nat, i ≤ j → j ≤ 257 → R.getD i 0 ≤ R.getD j 0 := by
  intro i j
  induction j with
  | zero =>
    intro hij _
    have : i = 0 := Nat.le_zero.mp hij
    rw [this]
  | succ k ih =>
    intro hij hj
    rcases Nat.lt_or_ge i (k + 1) with h | h
    · exact le_trans (ih (by omega) (by omega)) (hmono k (by omega))
    · have : i = k + 1 := by omega
      rw [this]

/-- Some slot of a cumulative table covering `t` brackets it. -/
lemma exists_bracket (R : List Int) (t : Int) (h0 : R.getD 0 0 ≤ t) :
    ∀ n : Nat, t < R.getD n 0 →
      ∃ s : Nat, s < n ∧ R.getD s 0 ≤ t ∧ t < R.getD (s + 1) 0 := by
  intro n
  induction n with
  | zero => intro h; exact absurd h (by omega)
  | succ k ih =>
    intro h
    by_cases hk : R.getD k 0 ≤ t
    · exact ⟨k, Nat.lt_succ_self k, hk, h⟩
    · obtain ⟨s, hs1, hs2, hs3⟩ := ih (not_le.mp hk)
      exact ⟨s, by omega, hs2, hs3⟩

/-- The bracketing slot is unique under monotonicity. -/
lemma bracket_unique (R : List Int) (t : Int)
    (hmono : ∀ i : Nat, i < 257 → R.getD i 0 ≤ R.getD (i + 1) 0)
    (s s2 : Nat) (hs : s ≤ 256) (hs2 : s2 ≤ 256)
    (b1 : R.getD s 0 ≤ t) (b2 : t < R.getD (s + 1) 0)
    (c1 : R.getD s2 0 ≤ t) (c2 : t < R.getD (s2 + 1) 0) : s2 = s := by
  rcases Nat.lt_trichotomy s2 s with h | h | h
  · have := ranges_mono_le R hmono (s2 + 1) s (by omega) (by omega)
    omega
  · exact h
  · have := ranges_mono_le R hmono (s + 1) s2 (by omega) (by omega)
    omega

/-- The binary-search loop returns the bracketing symbol whenever one lies
inside its `[first, last]` window and the fuel exceeds the window size. -/
lemma gsfp_loop_finds (R : List Int) (t : Int)
    (hmono : ∀ i : Nat, i < 257 → R.getD i 0 ≤ R.getD (i + 1) 0) :
    ∀ (fuel : Nat) (first last middle : Int) (s : Nat),
      s ≤ 256 → R.getD s 0 ≤ t → t < R.getD (s + 1) 0 →
      0 ≤ first → first ≤ (s : Int) → (s : Int) ≤ last → last ≤ 257 →
      middle = first + (last - first) / 2 →
      last - first < (fuel : Int) →
      get_symbol_from_probability_loop R t fuel first last middle = .ok s := by
  intro fuel
  induction fuel with
  | zero => intro first last middle s _ _ _ _ hfs hsl _ _ hfuel; omega
  | succ n ih =>
    intro first last middle s hs hbl hbr hf0 hfs hsl hl257 hmid hfuel
    rw [get_symbol_from_probability_loop]
    rw [if_pos (show first ≤ last by omega)]
    have hm0 : 0 ≤ middle := by omega
    have hmr : middle ≤ last := by omega
    by_cases hc1 : t < R.getD middle.toNat 0
    · rw [if_pos hc1]
      have hsm : (s : Int) < middle := by
        by_contra hle
        push_neg at hle
        have := ranges_mono_le R hmono middle.toNat s (by omega) (by omega)
        omega
      exact ih first (middle - 1) (first + (middle - 1 - first) / 2) s hs hbl hbr
        hf0 hfs (by omega) (by omega) rfl (by omega)
    · rw [if_neg hc1]
      by_cases hc2 : R.getD (middle.toNat + 1) 0 ≤ t
      · rw [if_pos hc2]
        have hms : middle < (s : Int) := by
          by_contra hle
          push_neg at hle
          have := ranges_mono_le R hmono (s + 1) (middle.toNat + 1) (by omega) (by omega)
          omega
        exact ih (middle + 1) last (middle + 1 + (last - (middle + 1)) / 2) s hs hbl hbr
          (by omega) (by omega) hsl hl257 rfl (by omega)
      · rw [if_neg hc2]
        have hmid256 : middle.toNat ≤ 256 := by
          by_contra hgt
          have h257 : middle.toNat = 257 := by omega
          have hlt : t < R.getD 257 0 :=
            lt_of_lt_of_le hbr (ranges_mono_le R hmono (s + 1) 257 (by omega) (by omega))
          rw [h257] at hc1
          exact hc1 hlt
        have heq : middle.toNat = s :=
          bracket_unique R t hmono s middle.toNat hs hmid256 hbl hbr
            (not_lt.mp hc1) (not_le.mp hc2)
        rw [heq]

/-- C10.  Under the table invariants (`R[0] = 0`, `R` non-decreasing,
`R[257] = cum_total > 0`) and `lower <= code <= upper`,
`get_unscaled_code` returns a value in `[0, cum_total)`; and for every
target in `[0, cum_total)`, `get_symbol_from_probability` returns (without
reaching the `rangeLookup` error branch) the unique symbol `s <= 256` with
`R[s] <= target < R[s+1]`. -/
theorem unscale_and_lookup_safe (st : ArithmeticCode)
    (h0 : st.ranges.getD 0 0 = 0)
    (hmono : ∀ i : Nat, i < 257 → st.ranges.getD i 0 ≤ st.ranges.getD (i + 1) 0)
    (hcum : st.ranges.getD 257 0 = st.cumulative_prob)
    (hpos : 0 < st.cumulative_prob)
    (hcl : st.lower ≤ st.code) (hcu : st.code ≤ st.upper) :
    (0 ≤ get_unscaled_code st ∧ get_unscaled_code st < st.cumulative_prob) ∧
    ∀ t : Int, 0 ≤ t → t < st.cumulative_prob →
      ∃ s : Nat, get_symbol_from_probability st t = .ok s ∧ s ≤ 256 ∧
        st.ranges.getD s 0 ≤ t ∧ t < st.ranges.getD (s + 1) 0 ∧
        ∀ s2 : Nat, s2 ≤ 256 → st.ranges.getD s2 0 ≤ t →
          t < st.ranges.getD (s2 + 1) 0 → s2 = s := by
  have hunsc : get_unscaled_code st =
      ((st.code - st.lower + 1) * st.cumulative_prob - 1) /
        (st.upper - st.lower + 1) := rfl
  have hWpos : (0:Int) < st.upper - st.lower + 1 := by omega
  constructor
  · constructor
    · rw [hunsc]
      apply Int.ediv_nonneg _ (by omega)
      have h1 : (1:Int) * st.cumulative_prob ≤
          (st.code - st.lower + 1) * st.cumulative_prob :=
        mul_le_mul_of_nonneg_right (by omega) (by omega)
      linarith
    · rw [hunsc]
      rw [Int.ediv_lt_iff_lt_mul hWpos]
      have h1 : (st.code - st.lower + 1) * st.cumulative_prob ≤
          (st.upper - st.lower + 1) * st.cumulative_prob :=
        mul_le_mul_of_nonneg_right (by omega) (by omega)
      have h2 : (st.upper - st.lower + 1) * st.cumulative_prob =
          st.cumulative_prob * (st.upper - st.lower + 1) := mul_comm _ _
      linarith
  · intro t ht0 htc
    have hcover : t < st.ranges.getD 257 0 := by rw [hcum]; exact htc
    obtain ⟨s, hs257, hbl, hbr⟩ := exists_bracket st.ranges t (by omega) 257 hcover
    refine ⟨s, ?_, by omega, hbl, hbr, ?_⟩
    · rw [get_symbol_from_probability]
      exact gsfp_loop_finds st.ranges t hmono 300 0 ((EOF_CHAR : Int) + 1)
        (((EOF_CHAR : Int) + 1) / 2) s (by omega) hbl hbr (by norm_num)
        (by omega) (by norm_num [EOF_CHAR]; omega) (by norm_num [EOF_CHAR])
        (by norm_num [EOF_CHAR]) (by norm_num [EOF_CHAR])
    · intro s2 hs2 hc1 hc2
      exact bracket_unique st.ranges t hmono s s2 (by omega) hs2 hbl hbr hc1 hc2

/-- Witness for C10 on `demo_state` (uniform table `R[i] = i`,
`cum_total = 257`): the unscaled value of code 0 lies in `[0, 257)` and the
search finds the bracketing symbol of target 5. -/
theorem unscale_and_lookup_safe_witness :
    (demo_state.ranges.getD 0 0 = 0 ∧
      demo_state.ranges.getD 257 0 = demo_state.cumulative_prob ∧
      (0:Int) < demo_state.cumulative_prob ∧
      demo_state.lower ≤ demo_state.code ∧ demo_state.code ≤ demo_state.upper) ∧
    (0 ≤ get_unscaled_code demo_state ∧
      get_unscaled_code demo_state < demo_state.cumulative_prob) := by
  have h0 : demo_state.ranges.getD 0 0 = 0 := by decide
  have hmono : ∀ i : Nat, i < 257 →
      demo_state.ranges.getD i 0 ≤ demo_state.ranges.getD (i + 1) 0 := by decide
  have hcum : demo_state.ranges.getD 257 0 = demo_state.cumulative_prob := by decide
  have hpos : (0:Int) < demo_state.cumulative_prob := by decide
  have hcl : demo_state.lower ≤ demo_state.code := by decide
  have hcu : demo_state.code ≤ demo_state.upper := by decide
  exact ⟨⟨h0, hcum, hpos, hcl, hcu⟩,
    (unscale_and_lookup_safe demo_state h0 hmono hcum hpos hcl hcu).1⟩


/-- Generalized accumulator law for the MSB-first bit fold. -/
lemma bits_foldl_acc (l : List Bool) (a : Nat) :
    l.foldl (fun a b => 2 * a + (if b then 1 else 0)) a =
      a * 2 ^ l.length + l.foldl (fun a b => 2 * a + (if b then 1 else 0)) 0 := by
  induction l generalizing a with
  | nil => simp
  | cons b t ih =>
    rw [List.foldl_cons, List.foldl_cons, ih (2 * a + (if b then 1 else 0)),
      ih (2 * 0 + (if b then 1 else 0)), List.length_cons, pow_succ]
    ring

/-- `put_bits_ltom` peels its top bit. -/
lemma put_bits_msb_succ (n v : Nat) :
    put_bits_msb (n + 1) v = v.testBit n :: put_bits_msb n v := by
  rw [put_bits_msb, put_bits_msb, List.range_succ_eq_map, List.map_cons,
    List.map_map]
  refine congrArg₂ List.cons (by simp) ?_
  apply List.map_congr_left
  intro i _
  simp only [Function.comp]
  congr 1
  omega

/-- `put_bits_msb n v` has exactly `n` bits. -/
lemma put_bits_msb_length (n v : Nat) : (put_bits_msb n v).length = n := by
  simp [put_bits_msb]

/-- Reading back the bits written by `put_bits_ltom` recovers `v mod 2^n`. -/
lemma bits_to_nat_put_bits (n v : Nat) :
    bits_to_nat (put_bits_msb n v) = v % 2 ^ n := by
  induction n with
  | zero => simp [bits_to_nat, put_bits_msb, Nat.mod_one]
  | succ n ih =>
    rw [put_bits_msb_succ, bits_to_nat, List.foldl_cons, bits_foldl_acc,
      put_bits_msb_length]
    have hih : (put_bits_msb n v).foldl
        (fun a b => 2 * a + (if b then 1 else 0)) 0 = v % 2 ^ n := ih
    rw [hih, Nat.testBit_to_div_mod, pow_succ, Nat.mod_mul]
    rcases Nat.mod_two_eq_zero_or_one (v / 2 ^ n) with h | h
    · simp [h]
    · simp [h]
      ring

/-- `get_bits_ltom n` inverts `put_bits_ltom n` on any stream. -/
lemma get_bits_msb_put (n v : Nat) (tail : List Bool) (h : v < 2 ^ n) :
    get_bits_msb n (put_bits_msb n v ++ tail) = some (v, tail) := by
  have hlen : (put_bits_msb n v).length = n := put_bits_msb_length n v
  rw [get_bits_msb, if_pos (by simp [hlen]), List.take_left' hlen,
    List.drop_left' hlen, bits_to_nat_put_bits, Nat.mod_eq_of_lt h]

/-- C6.  The header record loop of `read_header`: (1) a record whose
`PRECISION - 2`-bit count field is zero ends the header immediately,
whatever its symbol byte, leaving the table, the running total and the rest
of the stream untouched; (2) a nonzero-count record for a symbol whose slot
is already nonzero fails with the duplicate-entry `MalformedHeader` error;
(3) a nonzero-count record for a fresh symbol sets `R[symbol + 1] = count`,
adds `count` to the running total and continues with the rest of the
stream. -/
theorem read_header_record_handling :
    (∀ (fuel : Nat) (ranges : List Int) (cum : Int) (c : Nat)
        (rest : List Bool), c < 2 ^ 8 →
      read_header_loop (fuel + 1) ranges cum
          (put_bits_msb 8 c ++ put_bits_msb (PRECISION - 2) 0 ++ rest) =
        .ok (ranges, cum, rest)) ∧
    (∀ (fuel : Nat) (ranges : List Int) (cum : Int) (c count : Nat)
        (rest : List Bool), c < 2 ^ 8 → count ≠ 0 →
        count < 2 ^ (PRECISION - 2) → ranges.getD (c + 1) 0 ≠ 0 →
      read_header_loop (fuel + 1) ranges cum
          (put_bits_msb 8 c ++ put_bits_msb (PRECISION - 2) count ++ rest) =
        .error .malformedHeader) ∧
    (∀ (fuel : Nat) (ranges : List Int) (cum : Int) (c count : Nat)
        (rest : List Bool), c < 2 ^ 8 → count ≠ 0 →
        count < 2 ^ (PRECISION - 2) → ranges.getD (c + 1) 0 = 0 →
      read_header_loop (fuel + 1) ranges cum
          (put_bits_msb 8 c ++ put_bits_msb (PRECISION - 2) count ++ rest) =
        read_header_loop fuel (ranges.set (c + 1) (count : Int))
          (cum + (count : Int)) rest) := by
  have hzero : (0 : Nat) < 2 ^ (PRECISION - 2) := by norm_num [PRECISION]
  refine ⟨?_, ?_, ?_⟩
  · intro fuel ranges cum c rest hc
    have h8 := get_bits_msb_put 8 c (put_bits_msb (PRECISION - 2) 0 ++ rest) hc
    have h14 := get_bits_msb_put (PRECISION - 2) 0 rest hzero
    rw [List.append_assoc]
    simp only [read_header_loop, h8, h14]
    rw [if_pos trivial]
  · intro fuel ranges cum c count rest hc hcount hlt hdup
    have h8 :=
      get_bits_msb_put 8 c (put_bits_msb (PRECISION - 2) count ++ rest) hc
    have h14 := get_bits_msb_put (PRECISION - 2) count rest hlt
    rw [List.append_assoc]
    simp only [read_header_loop, h8, h14]
    rw [if_neg hcount, if_pos hdup]
  · intro fuel ranges cum c count rest hc hcount hlt hfresh
    have h8 :=
      get_bits_msb_put 8 c (put_bits_msb (PRECISION - 2) count ++ rest) hc
    have h14 := get_bits_msb_put (PRECISION - 2) count rest hlt
    rw [List.append_assoc]
    simp only [read_header_loop, h8, h14]
    rw [if_neg hcount, if_neg (not_not_intro hfresh)]

/-- Witness for C6: a zero-count record with symbol byte 7 ends the header
on a fresh table, and with slot 8 already holding 3 a second record for
byte 7 with count 5 is rejected as a duplicate. -/
theorem read_header_record_handling_witness :
    ((7 : Nat) < 2 ^ 8 ∧
      read_header_loop 1 (List.replicate 258 (0 : Int)) 0
          (put_bits_msb 8 7 ++ put_bits_msb (PRECISION - 2) 0 ++ []) =
        .ok (List.replicate 258 (0 : Int), 0, [])) ∧
    ((5 : Nat) ≠ 0 ∧ (5 : Nat) < 2 ^ (PRECISION - 2) ∧
      ((List.replicate 258 (0 : Int)).set 8 3).getD (7 + 1) 0 ≠ 0 ∧
      read_header_loop 1 ((List.replicate 258 (0 : Int)).set 8 3) 3
          (put_bits_msb 8 7 ++ put_bits_msb (PRECISION - 2) 5 ++ []) =
        .error .malformedHeader) := by
  refine ⟨⟨by norm_num, read_header_record_handling.1 0
      (List.replicate 258 (0 : Int)) 0 7 [] (by norm_num)⟩,
    by norm_num, by norm_num [PRECISION], by decide,
    read_header_record_handling.2.1 0 ((List.replicate 258 (0 : Int)).set 8 3)
      3 7 5 [] (by norm_num) (by norm_num) (by norm_num [PRECISION])
      (by decide)⟩

end Arcode
